import Mathlib

/-!
# Log-level configuration controller: embedding and verified properties

Shallow embedding of `log/logcontroller.go` and `log/configmanager.go`.

Modelling conventions.

* A Go `string` is a Lean `String` (the text is taken to be valid UTF-8).
* A Go `map[string]string` is a `GoMap`: either `none` (the nil map) or
  `some entries`, where `entries` lists the key/value pairs in the order in which a
  `range` statement happens to enumerate them.  Go leaves that order unspecified, so
  every statement below is made for an arbitrary list.  A map built by the Go run time
  never holds a key twice; where a statement needs that fact it is the hypothesis
  `NodupKeys`.
* A run-time panic of the Go code is the error branch of `Except GoPanic`.
* Maps are reference values.  A function that writes to a map it was handed returns,
  next to its result, the contents its caller finds in the argument afterwards.
-/

namespace LogConfig

/-! ## Go run-time model -/

/-- Run-time panics the embedded code can raise. -/
inductive GoPanic where
  /-- The Go panic `assignment to entry in nil map`. -/
  | nilMapAssignment
  /-- The Go panic `index out of range [index] with length length`. -/
  | indexOutOfRange (index length : Nat)
  /-- The Go panic `invalid memory address or nil pointer dereference`. -/
  | nilPointerDereference
  deriving DecidableEq, Repr

/-- Key/value pairs of an allocated map, in enumeration order. -/
abbrev Entries := List (String × String)

/-- A value of Go type `map[string]string`; `none` is the nil map. -/
abbrev GoMap := Option Entries

/-- The keys of an entry list. -/
def keysOf (es : Entries) : List String := es.map Prod.fst

/-- A well-formed entry list holds every key once. -/
def NodupKeys (es : Entries) : Prop := (keysOf es).Nodup

instance (es : Entries) : Decidable (NodupKeys es) :=
  inferInstanceAs (Decidable (keysOf es).Nodup)

/-- Value stored under `k`, if any. -/
def lookupKey (k : String) : Entries → Option String
  | [] => none
  | (k', v) :: rest => if k' = k then some v else lookupKey k rest

/-- The assignment `m[k] = v` on an allocated map: overwrite the entry of `k`, or add one. -/
def setEntry (k v : String) : Entries → Entries
  | [] => [(k, v)]
  | (k', v') :: rest => if k' = k then (k, v) :: rest else (k', v') :: setEntry k v rest

namespace GoMap

/-- The pairs a `range` over the map visits; a nil map yields none. -/
def entries : GoMap → Entries
  | none => []
  | some es => es

/-- The read `m[k]` with its presence flag; reading a nil map finds nothing. -/
def get? (m : GoMap) (k : String) : Option String := lookupKey k m.entries

/-- The statement `m[k] = v`; it panics on a nil map. -/
def assign (m : GoMap) (k v : String) : Except GoPanic GoMap :=
  match m with
  | none => .error .nilMapAssignment
  | some es => .ok (some (setEntry k v es))

end GoMap

/-! ## `logcontroller.go`: the level reconciler -/

/-- Go `getDefaultLogLevel`: the value under the key `default`, or the empty string. -/
def getDefaultLogLevel (logLevel : GoMap) : String :=
  match logLevel.entries.find? (fun e => e.1 == "default") with
  | some (_, level) => level
  | none => ""

/-- The loop of `createCurrentLogLevel` over the enumerated pairs of `activeLogLevels`,
threading the map `currentLogLevel` that the loop body writes to. -/
def createCurrentLogLevel.loop (level : String) : Entries → GoMap → Except GoPanic GoMap
  | [], currentLogLevel => .ok currentLogLevel
  | (activeKey, activeLevel) :: rest, currentLogLevel =>
    let exist := currentLogLevel.entries.any (fun e => activeKey == e.1)
    if !exist then
      let activeLevel := if level != "" then level else activeLevel
      match currentLogLevel.assign activeKey activeLevel with
      | .error p => .error p
      | .ok currentLogLevel => createCurrentLogLevel.loop level rest currentLogLevel
    else createCurrentLogLevel.loop level rest currentLogLevel

/-- What the caller of `createCurrentLogLevel` holds once the call has returned. -/
structure MergeOutcome where
  /-- Contents of the map passed as first argument. -/
  activeLogLevels : GoMap
  /-- Contents of the map passed as second argument. -/
  currentLogLevel : GoMap
  /-- Contents of the returned map; the code returns its second argument. -/
  returned : GoMap
  deriving DecidableEq, Repr

/-- Go `createCurrentLogLevel`.  The two arguments are taken to be distinct map objects
(when they are the same object every key exists already and nothing is written). -/
def createCurrentLogLevel (activeLogLevels currentLogLevel : GoMap) :
    Except GoPanic MergeOutcome :=
  let level := getDefaultLogLevel currentLogLevel
  match createCurrentLogLevel.loop level activeLogLevels.entries currentLogLevel with
  | .error p => .error p
  | .ok currentLogLevel =>
    .ok { activeLogLevels := activeLogLevels
          currentLogLevel := currentLogLevel
          returned := currentLogLevel }

/-- The value the reconciler inserts for a global entry: the component default when that is
non-empty, the global value otherwise. -/
def fallbackOr (level activeLevel : String) : String :=
  if level != "" then level else activeLevel

/-! ## Go `strings` and slices -/

/-- Go slice indexing `xs[i]`, which panics when `i` is out of range. -/
def index {α : Type} (xs : List α) (i : Nat) : Except GoPanic α :=
  match xs.get? i with
  | some x => .ok x
  | none => .error (.indexOutOfRange i xs.length)

/-- Go `strings.Index` on character lists: the position of the first occurrence of `sep`,
`none` standing for the result `-1`. -/
def indexOf (sep : List Char) : List Char → Option Nat
  | [] => if sep.isPrefixOf [] then some 0 else none
  | c :: t => if sep.isPrefixOf (c :: t) then some 0 else (indexOf sep t).map (· + 1)

/-- The counting loop of Go `strings.Count` for a non-empty `sep`: non-overlapping
occurrences found from left to right.  `fuel` bounds the number of iterations. -/
def countLoop (sep : List Char) : Nat → List Char → Nat
  | 0, _ => 0
  | fuel + 1, s =>
    match indexOf sep s with
    | none => 0
    | some i => countLoop sep fuel (s.drop (i + sep.length)) + 1

/-- Go `strings.Count`.  Every iteration of the loop removes at least one character, so
`s.length` iterations exhaust the string. -/
def Count (s sep : String) : Nat :=
  if sep.data = [] then s.length + 1 else countLoop sep.data s.length s.data

/-- The loop of Go `genSplit`: at most `n` cuts, each at the first occurrence of `sep` in
what is left; `sepSave` characters of the separator stay with the piece before it. -/
def genSplit.loop (sep : List Char) (sepSave : Nat) : Nat → List Char → List (List Char)
  | 0, s => [s]
  | n + 1, s =>
    match indexOf sep s with
    | none => [s]
    | some m => s.take (m + sepSave) :: genSplit.loop sep sepSave n (s.drop (m + sep.length))

/-- Go `explode`: the string cut into its characters. -/
def explode (s : String) : List String := s.data.map String.singleton

/-- Go `genSplit(s, sep, sepSave, -1)`. -/
def genSplit (s sep : String) (sepSave : Nat) : List String :=
  if sep.data = [] then explode s
  else (genSplit.loop sep.data sepSave (Count s sep) s.data).map String.mk

/-- Go `strings.Split`. -/
def Split (s sep : String) : List String := genSplit s sep 0

/-- Go `strings.SplitAfter`. -/
def SplitAfter (s sep : String) : List String := genSplit s sep sep.length

/-! ## `configmanager.go` -/

/-- Go `ConfigType`, with its two declared constants. -/
inductive ConfigType where
  | ConfigTypeLogLevel
  | ConfigTypeKafka
  deriving DecidableEq, Repr

/-- Go `ConfigType.String`. -/
def ConfigType.String : ConfigType → String
  | .ConfigTypeLogLevel => "loglevel"
  | .ConfigTypeKafka => "kafka"

/-- Go `ChangeEventType`, an `int`; `Put` is 0 and `Delete` is 1. -/
abbrev ChangeEventType := Int

/-- Go `ConfigChangeEvent`; the payload `Value` is carried as text. -/
structure ConfigChangeEvent where
  ChangeType : ChangeEventType
  Key : String
  PackageName : String
  Value : String
  deriving DecidableEq, Repr

/-- Go `ConfigManager`, reduced to the field the key codec reads. -/
structure ConfigManager where
  KvStoreConfigPrefix : String
  deriving DecidableEq, Repr

/-- Go `ComponentConfig`, without its two channels. -/
structure ComponentConfig where
  cManager : ConfigManager
  componentLabel : String
  configType : ConfigType
  deriving DecidableEq, Repr

/-- Go `kvstore.Event` as delivered on `kvStoreEventChan`. -/
structure Event where
  EventType : Int
  Key : String
  Value : String
  deriving DecidableEq, Repr

/-- Go `makeConfigPath`. -/
def makeConfigPath (c : ComponentConfig) : String :=
  let cType := c.configType.String
  c.cManager.KvStoreConfigPrefix ++ c.componentLabel ++ "/" ++ cType

/-- Body of the loop of `processKVStoreWatchEvents`: the event built from one
notification, or the panic raised while indexing the split results. -/
def processKVStoreWatchEvents.body (c : ComponentConfig) (watchResp : Event) :
    Except GoPanic ConfigChangeEvent := do
  let key := watchResp.Key
  let ky := SplitAfter key c.cManager.KvStoreConfigPrefix
  let configKey := Split (← index ky 1) ("/" ++ c.configType.String)
  let pname := SplitAfter (← index configKey 1) "/"
  let ChangeType : ChangeEventType := watchResp.EventType
  let configEvent : ConfigChangeEvent :=
    ⟨ChangeType, ← index configKey 0, ← index pname 1, watchResp.Value⟩
  pure configEvent

/-- What a run of the translator task has done when it stops. -/
structure WatchRun where
  /-- Events sent on `changeEventChan`, in order. -/
  emitted : List ConfigChangeEvent
  /-- The panic that ended the task, `none` when the input channel was drained. -/
  panicked : Option GoPanic
  deriving DecidableEq, Repr

/-- Go `processKVStoreWatchEvents` on the notifications its input channel delivers. -/
def processKVStoreWatchEvents (c : ComponentConfig) : List Event → WatchRun
  | [] => ⟨[], none⟩
  | watchResp :: rest =>
    match processKVStoreWatchEvents.body c watchResp with
    | .error p => ⟨[], some p⟩
    | .ok configEvent =>
      let run := processKVStoreWatchEvents c rest
      ⟨configEvent :: run.emitted, run.panicked⟩

/-! ## Imported packages: `encoding/json`, `crypto/md5`, `log`

The code of these packages is not part of the repository.  `json.Marshal` on a
`map[string]string` is written out after the Go standard library; the digest function
and the level/name conversions of the `log` package are parameters. -/

/-- Go `[16]byte`. -/
abbrev Digest := Fin 16 → Fin 256

/-- The table `hex` of `encoding/json`. -/
def hexDigit (n : Nat) : Char := "0123456789abcdef".data.getD n '0'

/-- The table `htmlSafeSet` of `encoding/json`: the ASCII characters written as they are. -/
def htmlSafe (c : Char) : Bool :=
  decide (0x20 ≤ c.toNat) && decide (c.toNat < 0x80) &&
    !(c == '"' || c == '&' || c == '<' || c == '>' || c == '\\')

/-- How `encoding/json` writes one character of a string (HTML escaping on, as in
`json.Marshal`). -/
def escapeChar (c : Char) : List Char :=
  if c.toNat < 0x80 then
    if htmlSafe c then [c]
    else if c = '\\' ∨ c = '"' then ['\\', c]
    else if c = '\n' then ['\\', 'n']
    else if c = '\r' then ['\\', 'r']
    else if c = '\t' then ['\\', 't']
    else ['\\', 'u', '0', '0', hexDigit (c.toNat / 16), hexDigit (c.toNat % 16)]
  else if c = '\u2028' ∨ c = '\u2029' then
    ['\\', 'u', '2', '0', '2', hexDigit (c.toNat % 16)]
  else [c]

/-- The escaped characters of a string, one after the other. -/
def escapeChars : List Char → List Char
  | [] => []
  | c :: rest => escapeChar c ++ escapeChars rest

/-- A string as `encoding/json` writes it: quoted and escaped. -/
def encodeString (s : String) : List Char := '"' :: (escapeChars s.data ++ ['"'])

/-- The members of a JSON object, separated by commas. -/
def encodeEntries : Entries → List Char
  | [] => []
  | [(k, v)] => encodeString k ++ ':' :: encodeString v
  | (k, v) :: e :: rest =>
    encodeString k ++ ':' :: encodeString v ++ ',' :: encodeEntries (e :: rest)

/-- The order in which `encoding/json` writes the entries of a map: sorted by key. -/
def sortEntries (es : Entries) : Entries :=
  es.insertionSort (fun a b => a.1 ≤ b.1)

/-- Go `json.Marshal` on a `map[string]string`: `null` for the nil map, else the object
with its members in key order.  Keys and values are valid UTF-8 text, as every `String`
is; a Go string with a byte outside a valid encoding, which `json.Marshal` writes as
`\ufffd`, is not represented. -/
def jsonMarshal (m : GoMap) : String :=
  match m with
  | none => "null"
  | some es => ⟨'\x7b' :: (encodeEntries (sortEntries es) ++ ['\x7d'])⟩

/-- Go `GenerateLogConfigHash`; `md5Sum` is `md5.Sum` applied to the bytes of the text. -/
def GenerateLogConfigHash (md5Sum : String → Digest) (createHashLog : GoMap) : Digest :=
  let levelData := jsonMarshal createHashLog
  md5Sum levelData

/-- The conversions between level numbers and level names of the `log` package. -/
structure LogPackage where
  IntToString : Int → String
  StringToInt : String → Int

/-- Modelled from the spec: the state of the logging engine behind the capability
contract (`getDefaultLevel`, `listKnownPackages`, `getPackageLevel`): its default level
and the level of every package it knows. -/
structure Logger where
  defaultLevel : Int
  packages : List (String × Int)
  deriving DecidableEq, Repr

/-- A call of one of the two setters of the logging engine. -/
inductive LogCall where
  | SetDefaultLogLevel (level : Int)
  | SetPackageLogLevel (packageName : String) (level : Int)
  deriving DecidableEq, Repr

/-- Modelled from the spec: `getPackageLevel`, failing on a package the engine does not
know. -/
def Logger.GetPackageLogLevel (logger : Logger) (packageName : String) : Except String Int :=
  match logger.packages.find? (fun e => e.1 == packageName) with
  | some (_, level) => .ok level
  | none => .error ("unknown-package-" ++ packageName)

/-- Modelled from the spec: the effect of a setter call on the engine; setting the level
of a package the engine does not know changes nothing. -/
def Logger.apply (logger : Logger) : LogCall → Logger
  | .SetDefaultLogLevel level => { logger with defaultLevel := level }
  | .SetPackageLogLevel packageName level =>
    { logger with
      packages := logger.packages.map
        (fun e => if e.1 = packageName then (e.1, level) else e) }

/-- Go `strings.ReplaceAll` for a one-character pattern and replacement. -/
def ReplaceAll (s : String) (old new : Char) : String :=
  ⟨s.data.map (fun ch => if ch = old then new else ch)⟩

/-! ## `logcontroller.go`: active levels, applier, change gate -/

/-- The loop of `getActiveLogLevel` over the package names. -/
def getActiveLogLevel.loop (log : LogPackage) (logger : Logger) :
    List String → Entries → Except String Entries
  | [], loglevel => .ok loglevel
  | packageName :: rest, loglevel =>
    match logger.GetPackageLogLevel packageName with
    | .error err => .error err
    | .ok level =>
      let packagename := ReplaceAll packageName '/' '#'
      getActiveLogLevel.loop log logger rest (setEntry packagename (log.IntToString level) loglevel)

/-- Go `getActiveLogLevel`; the error branch stands for the result `(nil, err)`. -/
def getActiveLogLevel (log : LogPackage) (logger : Logger) : Except String GoMap :=
  let loglevel : Entries := setEntry "default" (log.IntToString logger.defaultLevel) []
  match getActiveLogLevel.loop log logger (logger.packages.map Prod.fst) loglevel with
  | .error err => .error err
  | .ok loglevel => .ok (some loglevel)

/-- The map a caller holds after `m, _ := f()` for a Go function returning `(map, error)`:
on an error the function returned the nil map. -/
def mapOrNil : Except String GoMap → GoMap
  | .ok m => m
  | .error _ => none

/-- The setter call the loop of `UpdateLogLevels` makes for one entry. -/
def UpdateLogLevels.call (log : LogPackage) (entry : String × String) : LogCall :=
  if entry.1 == "default" then
    .SetDefaultLogLevel (log.StringToInt entry.2)
  else
    let pname := ReplaceAll entry.1 '#' '/'
    .SetPackageLogLevel pname (log.StringToInt entry.2)

/-- What `UpdateLogLevels` leaves behind. -/
structure UpdateOutcome where
  /-- Contents of the map passed as argument. -/
  logLevel : GoMap
  /-- The setter calls made, in order. -/
  calls : List LogCall
  /-- The logging engine after those calls. -/
  logger : Logger
  deriving DecidableEq, Repr

/-- Go `UpdateLogLevels`. -/
def UpdateLogLevels (log : LogPackage) (logger : Logger) (logLevel : GoMap) :
    Except GoPanic UpdateOutcome :=
  let activeLogLevels := mapOrNil (getActiveLogLevel log logger)
  match createCurrentLogLevel activeLogLevels logLevel with
  | .error p => .error p
  | .ok merged =>
    let currentLogLevel := merged.returned
    let calls := currentLogLevel.entries.map (UpdateLogLevels.call log)
    .ok { logLevel := merged.currentLogLevel
          calls := calls
          logger := calls.foldl Logger.apply logger }

/-- Go `ComponentLogController`, without the store handle. -/
structure ComponentLogController where
  ComponentName : String
  componentNameConfig : Option ComponentConfig
  globalConfig : Option ComponentConfig
  logHash : Digest

/-- What `loadAndApplyLogConfig` leaves behind. -/
structure ApplyOutcome where
  /-- The controller, with its stored fingerprint. -/
  controller : ComponentLogController
  /-- The logging engine. -/
  logger : Logger
  /-- Contents of the map passed as argument. -/
  logLevel : GoMap
  /-- The calls of `UpdateLogLevels` made, each with the setter calls it issued. -/
  applied : List (List LogCall)

/-- Go `loadAndApplyLogConfig`. -/
def loadAndApplyLogConfig (md5Sum : String → Digest) (log : LogPackage)
    (c : ComponentLogController) (logger : Logger) (logLevel : GoMap) :
    Except GoPanic ApplyOutcome :=
  let currentLogHash := GenerateLogConfigHash md5Sum logLevel
  if c.logHash ≠ currentLogHash then
    match UpdateLogLevels log logger logLevel with
    | .error p => .error p
    | .ok out =>
      .ok { controller := { c with logHash := currentLogHash }
            logger := out.logger
            logLevel := out.logLevel
            applied := [out.calls] }
  else
    .ok { controller := c, logger := logger, logLevel := logLevel, applied := [] }

/-! ## Store listing, value decoding, accessor writes, control loop -/

/-- Go `kvstore.KVPair`, reduced to its key and its payload, the payload carried as text. -/
structure KVPair where
  Key : String
  Value : String
  deriving DecidableEq, Repr

/-- Go `getLogLevel` on the text of the payload (`fmt.Sprintf("%s", val)`). -/
def getLogLevel (val : String) : Except GoPanic String := do
  let level := val
  let logLevel := SplitAfter level "\\"
  let loglevel := Split (← index logLevel 0) "\""
  index loglevel 1

/-- The loop of `populateListData` over the enumerated values of `data`, threading the map
`loglevel` under construction. -/
def populateListData.loop (configType : String) : List KVPair → Entries → Except GoPanic Entries
  | [], loglevel => .ok loglevel
  | val :: rest, loglevel => do
    let key := SplitAfter val.Key (configType ++ "/")
    let leaf ← index key 1
    let level ← getLogLevel val.Value
    populateListData.loop configType rest (setEntry leaf level loglevel)

/-- Go `populateListData`; `data` lists the values of the map in enumeration order. -/
def populateListData (data : List KVPair) (configType : String) : Except GoPanic GoMap :=
  match populateListData.loop configType data [] with
  | .error p => .error p
  | .ok loglevel => .ok (some loglevel)

/-- A write the accessor sends to the store backend. -/
inductive BackendCall where
  | Put (key : String) (value : String)
  | Delete (key : String)
  deriving DecidableEq, Repr

/-- Go `Save` for a string value: the backend call it makes.  `json.Marshal` of a string
is the quoted, escaped string. -/
def Save (c : ComponentConfig) (configKey : String) (configValue : String) : BackendCall :=
  let key := makeConfigPath c ++ "/" ++ configKey
  let configVal : String := ⟨encodeString configValue⟩
  .Put key configVal

/-- Go `Delete`: the backend call it makes. -/
def Delete (c : ComponentConfig) (_configKey : String) : BackendCall :=
  let key := makeConfigPath c
  .Delete key

/-- Modelled from the spec: the store capability contract `put(key, value)` and
`delete(key)` on a store seen as a key/value map. -/
def storeApply (store : Entries) : BackendCall → Entries
  | .Put key value => setEntry key value store
  | .Delete key => store.filter (fun e => e.1 != key)

/-- Go `ChangeEventType.EventString`, an index into a two-element array. -/
def ChangeEventType.EventString (c : ChangeEventType) : Except GoPanic String :=
  if c = 0 then .ok "Put"
  else if c = 1 then .ok "Delete"
  else .error (.indexOutOfRange c.toNat 2)

/-- The config type name read through a `*ComponentConfig` field of the controller. -/
def configTypeString : Option ComponentConfig → Except GoPanic String
  | none => .error .nilPointerDereference
  | some cfg => .ok cfg.configType.String

/-- Go `getGlobalLogConfig`; `retrieved` is what `c.globalConfig.RetreiveAll()` returned.
The inner `Except` is the Go result pair `(map, err)`. -/
def getGlobalLogConfig (c : ComponentLogController)
    (retrieved : Except String (List KVPair)) : Except GoPanic (Except String GoMap) := do
  let configType ← configTypeString c.globalConfig
  match retrieved with
  | .error err => pure (.error err)
  | .ok globalData =>
    let globalloglevel ← populateListData globalData configType
    pure (.ok globalloglevel)

/-- Go `getComponentLogConfig`; `retrieved` is what `c.componentNameConfig.RetreiveAll()`
returned. -/
def getComponentLogConfig (c : ComponentLogController)
    (retrieved : Except String (List KVPair)) : Except GoPanic (Except String GoMap) := do
  let configType ← configTypeString c.componentNameConfig
  match retrieved with
  | .error err => pure (.error err)
  | .ok data =>
    let componentLogLevel ← populateListData data configType
    pure (.ok componentLogLevel)

/-- Go `updateLogConfig`, given the results of the two store listings.  An error of a
listing is logged and the nil map it came with is used. -/
def updateLogConfig (c : ComponentLogController)
    (globalRetrieved componentRetrieved : Except String (List KVPair)) :
    Except GoPanic GoMap := do
  let globalLevel := mapOrNil (← getGlobalLogConfig c globalRetrieved)
  let componentLevel := mapOrNil (← getComponentLogConfig c componentRetrieved)
  let logLevel ← createCurrentLogLevel globalLevel componentLevel
  pure logLevel.returned

/-- One turn of the loop of `processLogConfig`: the handling of one received event, given
the results the two store listings give during that turn. -/
def processLogConfig.body (md5Sum : String → Digest) (log : LogPackage)
    (c : ComponentLogController) (logger : Logger) (changeEvent : ConfigChangeEvent)
    (globalRetrieved componentRetrieved : Except String (List KVPair)) :
    Except GoPanic ApplyOutcome := do
  if (← changeEvent.ChangeType.EventString) == "Put" then
    let logLevel ← updateLogConfig c globalRetrieved componentRetrieved
    loadAndApplyLogConfig md5Sum log c logger logLevel
  else
    pure { controller := c, logger := logger, logLevel := none, applied := [] }

/-- The substring `sep` occurs in `s` at character position `i`. -/
def occursAt (sep s : String) (i : Nat) : Prop := sep.data <+: s.data.drop i

instance (sep s : String) (i : Nat) : Decidable (occursAt sep s i) :=
  inferInstanceAs (Decidable (sep.data <+: s.data.drop i))

/-- Position of a character in the table `hex`: the inverse of `hexDigit`. -/
def hexVal (c : Char) : Nat := "0123456789abcdef".data.indexOf c

/-- Reads back one escaped character from the front of a JSON string body; used to show
that the escaping loses nothing. -/
def unescapeOne : List Char → Option (Char × List Char)
  | [] => none
  | c :: rest =>
    if c = '\\' then
      match rest with
      | 'u' :: '0' :: '0' :: h1 :: h2 :: rest' =>
        some (Char.ofNat (hexVal h1 * 16 + hexVal h2), rest')
      | 'u' :: '2' :: '0' :: '2' :: h :: rest' => some (Char.ofNat (0x2020 + hexVal h), rest')
      | 'n' :: rest' => some ('\n', rest')
      | 'r' :: rest' => some ('\r', rest')
      | 't' :: rest' => some ('\t', rest')
      | x :: rest' => some (x, rest')
      | [] => none
    else some (c, rest)

/-- A pair of level conversions, for evaluating the applier on concrete maps. -/
def sampleLog : LogPackage :=
  ⟨fun n => if n = 0 then "DEBUG" else if n = 1 then "INFO" else "ERROR",
   fun s => if s = "DEBUG" then 0 else if s = "INFO" then 1 else 3⟩

/-! ## Lemmas on entry lists -/

theorem lookupKey_eq_none_iff (k : String) (es : Entries) :
    lookupKey k es = none ↔ k ∉ keysOf es := by
  induction es with
  | nil => simp [lookupKey, keysOf]
  | cons e rest ih =>
    obtain ⟨k', v⟩ := e
    by_cases h : k' = k
    · simp [lookupKey, keysOf, h]
    · have h' : ¬ k = k' := fun e => h e.symm
      simpa [lookupKey, keysOf, h, h'] using ih

theorem any_key_eq_true_iff (k : String) (es : Entries) :
    es.any (fun e => k == e.1) = true ↔ k ∈ keysOf es := by
  simp only [List.any_eq_true, keysOf, List.mem_map, beq_iff_eq]
  constructor
  · rintro ⟨e, he, rfl⟩
    exact ⟨e, he, rfl⟩
  · rintro ⟨e, he, rfl⟩
    exact ⟨e, he, rfl⟩

theorem setEntry_of_not_mem (k v : String) (es : Entries) (h : k ∉ keysOf es) :
    setEntry k v es = es ++ [(k, v)] := by
  induction es with
  | nil => rfl
  | cons e rest ih =>
    obtain ⟨k', v'⟩ := e
    have hk : ¬ k' = k := by
      intro e
      exact h (by simp [keysOf, e])
    have hr : k ∉ keysOf rest := by
      intro hmem
      exact h (by simp only [keysOf, List.map_cons, List.mem_cons]; exact Or.inr hmem)
    simp [setEntry, hk, ih hr]

theorem lookupKey_append (k : String) (xs ys : Entries) :
    lookupKey k (xs ++ ys) = (lookupKey k xs).orElse (fun _ => lookupKey k ys) := by
  induction xs with
  | nil => simp [lookupKey]
  | cons e rest ih =>
    obtain ⟨k', v⟩ := e
    by_cases h : k' = k
    · simp [lookupKey, h]
    · simpa [lookupKey, h] using ih

theorem getDefaultLogLevel_eq (es : Entries) :
    getDefaultLogLevel (some es) = (lookupKey "default" es).getD "" := by
  induction es with
  | nil => rfl
  | cons e rest ih =>
    obtain ⟨k', v⟩ := e
    by_cases h : k' = "default"
    · simp [getDefaultLogLevel, GoMap.entries, lookupKey, h, List.find?]
    · have hb : (k' == "default") = false := by simpa using h
      simp only [getDefaultLogLevel, GoMap.entries, List.find?, hb, lookupKey, h, if_false] at ih ⊢
      exact ih

/-- The loop of the reconciler never fails on an allocated map, and the value it leaves
under any key is the original one when the key was there, else the substituted global one. -/
theorem loop_alloc (level : String) (g c : Entries) :
    ∃ c', createCurrentLogLevel.loop level g (some c) = .ok (some c') ∧
      ∀ k, lookupKey k c' =
        (lookupKey k c).orElse (fun _ => (lookupKey k g).map (fallbackOr level)) := by
  induction g generalizing c with
  | nil => exact ⟨c, rfl, fun k => by cases lookupKey k c <;> simp [lookupKey]⟩
  | cons e rest ih =>
    obtain ⟨a, l⟩ := e
    by_cases hmem : a ∈ keysOf c
    · obtain ⟨c', hc', hlook⟩ := ih c
      refine ⟨c', ?_, fun k => ?_⟩
      · have : (c.any fun e => a == e.1) = true := (any_key_eq_true_iff a c).2 hmem
        simp [createCurrentLogLevel.loop, GoMap.entries, this, hc']
      · rw [hlook k]
        by_cases hk : a = k
        · subst hk
          have : lookupKey a c ≠ none := fun h => (lookupKey_eq_none_iff a c).1 h hmem
          cases hq : lookupKey a c with
          | none => exact absurd hq this
          | some v => simp
        · simp [lookupKey, hk]
    · obtain ⟨c', hc', hlook⟩ := ih (c ++ [(a, fallbackOr level l)])
      refine ⟨c', ?_, fun k => ?_⟩
      · have : (c.any fun e => a == e.1) = false := by
          cases h : (c.any fun e => a == e.1) with
          | false => rfl
          | true => exact absurd ((any_key_eq_true_iff a c).1 h) hmem
        simp only [createCurrentLogLevel.loop, GoMap.entries, this, GoMap.assign,
          setEntry_of_not_mem a _ c hmem]
        simpa [fallbackOr] using hc'
      · rw [hlook k, lookupKey_append]
        by_cases hk : a = k
        · subst hk
          have : lookupKey a c = none := (lookupKey_eq_none_iff a c).2 hmem
          simp [this, lookupKey]
        · cases lookupKey k c <;> simp [lookupKey, hk]

/-- When every key of the enumerated pairs is already present, the loop writes nothing. -/
theorem loop_of_keys_subset (level : String) (g c : Entries)
    (h : ∀ k ∈ keysOf g, k ∈ keysOf c) :
    createCurrentLogLevel.loop level g (some c) = .ok (some c) := by
  induction g with
  | nil => rfl
  | cons e rest ih =>
    obtain ⟨a, l⟩ := e
    have ha : a ∈ keysOf c := h a (by simp [keysOf])
    have hany : (c.any fun e => a == e.1) = true := (any_key_eq_true_iff a c).2 ha
    have hrest : ∀ k ∈ keysOf rest, k ∈ keysOf c := fun k hk =>
      h k (by simp only [keysOf, List.map_cons, List.mem_cons]; exact Or.inr hk)
    simp [createCurrentLogLevel.loop, GoMap.entries, hany, ih hrest]

/-- After the loop every key of the enumerated pairs is present. -/
theorem loop_keys_present (level : String) (g c c' : Entries)
    (hlook : ∀ k, lookupKey k c' =
      (lookupKey k c).orElse (fun _ => (lookupKey k g).map (fallbackOr level))) :
    ∀ k ∈ keysOf g, k ∈ keysOf c' := by
  intro k hk
  by_contra hnot
  have h1 : lookupKey k c' = none := (lookupKey_eq_none_iff k c').2 hnot
  have h2 : lookupKey k g ≠ none := fun h => (lookupKey_eq_none_iff k g).1 h hk
  rw [hlook k] at h1
  cases hc : lookupKey k c with
  | some v => simp [hc] at h1
  | none =>
    cases hg : lookupKey k g with
    | none => exact h2 hg
    | some v => simp [hc, hg] at h1

/-! ## Reconciler: precedence, fallback, frame, idempotence -/

/-- C1: a key present in the component map keeps the component value in the map that
`createCurrentLogLevel` returns, whatever the global map holds. -/
theorem createCurrentLogLevel_component_entry_kept (G C : GoMap) (k v : String)
    (h : C.get? k = some v) :
    ∃ r, createCurrentLogLevel G C = .ok r ∧ r.returned.get? k = some v := by
  cases C with
  | none => simp [GoMap.get?, GoMap.entries, lookupKey] at h
  | some c =>
    obtain ⟨c', hc', hlook⟩ := loop_alloc (getDefaultLogLevel (some c)) G.entries c
    refine ⟨⟨G, some c', some c'⟩, ?_, ?_⟩
    · simp [createCurrentLogLevel, hc']
    · have hv : lookupKey k c = some v := h
      simp [GoMap.get?, GoMap.entries, hlook k, hv]

/-- Witness of C1 on the maps G = (default: INFO, pkgA: DEBUG), C = (pkgA: ERROR). -/
theorem createCurrentLogLevel_component_entry_kept_witness :
    GoMap.get? (some [("pkgA", "ERROR")]) "pkgA" = some "ERROR" ∧
    ∃ r, createCurrentLogLevel (some [("default", "INFO"), ("pkgA", "DEBUG")])
        (some [("pkgA", "ERROR")]) = .ok r ∧ r.returned.get? "pkgA" = some "ERROR" :=
  ⟨by decide, createCurrentLogLevel_component_entry_kept _ _ "pkgA" "ERROR" (by decide)⟩

theorem createCurrentLogLevel_nil_component (G : GoMap) (h : G.entries ≠ []) :
    createCurrentLogLevel G none = .error .nilMapAssignment := by
  cases hG : G.entries with
  | nil => exact absurd hG h
  | cons e rest =>
    obtain ⟨a, l⟩ := e
    simp only [createCurrentLogLevel, hG]
    rfl

theorem createCurrentLogLevel_nil_nil (G : GoMap) (h : G.entries = []) :
    createCurrentLogLevel G none = .ok ⟨G, none, none⟩ := by
  simp only [createCurrentLogLevel, h]
  rfl

theorem entries_ne_nil_of_get (G : GoMap) (k g : String) (h : G.get? k = some g) :
    G.entries ≠ [] := by
  intro hnil
  simp [GoMap.get?, hnil, lookupKey] at h

/-- C2: for a key `k` of the global map that the component map lacks, the call on an
allocated component map (the empty one included) returns, and the returned map holds under
`k` the component's `default` value when that value is present and non-empty, and the
global value otherwise.  On the nil component map the call does not return: the write of
the first global entry panics with `assignment to entry in nil map`. -/
theorem createCurrentLogLevel_global_entry (G C : GoMap) (k g : String)
    (hG : G.get? k = some g) (hC : C.get? k = none) :
    (∀ c, C = some c →
      ∃ r, createCurrentLogLevel G C = .ok r ∧
        r.returned.get? k = some
          (match C.get? "default" with
           | some d => if d = "" then g else d
           | none => g)) ∧
    (C = none → createCurrentLogLevel G C = .error .nilMapAssignment) := by
  constructor
  · intro c hc
    subst hc
    obtain ⟨c', hc', hlook⟩ := loop_alloc (getDefaultLogLevel (some c)) G.entries c
    refine ⟨⟨G, some c', some c'⟩, ?_, ?_⟩
    · simp [createCurrentLogLevel, hc']
    · have h1 : lookupKey k c = none := hC
      have h2 : lookupKey k G.entries = some g := hG
      have hr : lookupKey k c' = some (fallbackOr (getDefaultLogLevel (some c)) g) := by
        rw [hlook k, h1, h2]
        rfl
      show lookupKey k c' = some (match lookupKey "default" c with
           | some d => if d = "" then g else d
           | none => g)
      rw [hr, getDefaultLogLevel_eq]
      cases hd : lookupKey "default" c with
      | none => simp [fallbackOr]
      | some d =>
        by_cases he : d = ""
        · simp [fallbackOr, he]
        · simp [fallbackOr, he]
  · intro hc
    subst hc
    exact createCurrentLogLevel_nil_component G (entries_ne_nil_of_get G k g hG)

/-- Witness of C2: the two examples of the specification, and the global map
(pkgA: DEBUG) with the nil component map that a failed component listing leaves. -/
theorem createCurrentLogLevel_global_entry_witness :
    (∃ r, createCurrentLogLevel (some [("pkgA", "DEBUG")]) (some [("default", "WARN")]) = .ok r ∧
      r.returned.get? "pkgA" = some "WARN") ∧
    (∃ r, createCurrentLogLevel (some [("pkgA", "DEBUG")]) (some [("default", "WARN")]) = .ok r ∧
      r.returned.get? "default" = some "WARN") ∧
    (∃ r, createCurrentLogLevel (some [("pkgA", "DEBUG")]) (some []) = .ok r ∧
      r.returned.get? "pkgA" = some "DEBUG") ∧
    createCurrentLogLevel (some [("pkgA", "DEBUG")]) none = .error .nilMapAssignment :=
  ⟨(createCurrentLogLevel_global_entry (some [("pkgA", "DEBUG")]) (some [("default", "WARN")])
      "pkgA" "DEBUG" (by decide) (by decide)).1 _ rfl,
   ⟨_, rfl, by decide⟩,
   (createCurrentLogLevel_global_entry (some [("pkgA", "DEBUG")]) (some []) "pkgA" "DEBUG"
      (by decide) (by decide)).1 _ rfl,
   (createCurrentLogLevel_global_entry (some [("pkgA", "DEBUG")]) none "pkgA" "DEBUG"
      (by decide) (by decide)).2 rfl⟩

/-- C3, as the code behaves: the global map is left as it was, but the returned map is the
component map itself, written in place.  After the call the component map still holds
every pair it held, holds every key of the global map, and is unchanged exactly when every
key of the global map was already in it. -/
theorem createCurrentLogLevel_writes_component_in_place (G : GoMap) (c : Entries) :
    ∃ r, createCurrentLogLevel G (some c) = .ok r ∧
      r.activeLogLevels = G ∧
      r.returned = r.currentLogLevel ∧
      (∀ k v, GoMap.get? (some c) k = some v → r.currentLogLevel.get? k = some v) ∧
      (∀ k ∈ keysOf G.entries, k ∈ keysOf r.currentLogLevel.entries) ∧
      (r.currentLogLevel = some c ↔ ∀ k ∈ keysOf G.entries, k ∈ keysOf c) := by
  obtain ⟨c', hc', hlook⟩ := loop_alloc (getDefaultLogLevel (some c)) G.entries c
  have hkeys := loop_keys_present _ G.entries c c' hlook
  refine ⟨⟨G, some c', some c'⟩, ?_, rfl, rfl, ?_, hkeys, ?_⟩
  · simp [createCurrentLogLevel, hc']
  · intro k v hv
    have hv' : lookupKey k c = some v := hv
    simp [GoMap.get?, GoMap.entries, hlook k, hv']
  · constructor
    · intro h
      have hcc : c' = c := by simpa using h
      rw [hcc] at hkeys
      exact hkeys
    · intro h
      have := loop_of_keys_subset (getDefaultLogLevel (some c)) G.entries c h
      rw [hc'] at this
      simpa using this

/-- C3 fails as stated: with G = (pkgA: DEBUG) and an empty allocated component map, the
component map holds the pair (pkgA, DEBUG) after the call. -/
theorem createCurrentLogLevel_mutates_component_map :
    ∃ r, createCurrentLogLevel (some [("pkgA", "DEBUG")]) (some []) = .ok r ∧
      r.currentLogLevel = some [("pkgA", "DEBUG")] ∧ r.currentLogLevel ≠ some [] :=
  ⟨_, rfl, rfl, by decide⟩

/-- C10: on an allocated component map both calls return, and reconciling the returned map
against the same global map once more returns a map with the very same pairs.  On the nil
component map this holds only when the global map has no entry (both calls return the nil
map); with a global entry the first call already panics with `assignment to entry in nil
map`. -/
theorem createCurrentLogLevel_idempotent (G C : GoMap) :
    (∀ c, C = some c →
      ∃ r₁ r₂, createCurrentLogLevel G C = .ok r₁ ∧
        createCurrentLogLevel r₁.activeLogLevels r₁.returned = .ok r₂ ∧
        r₂.returned = r₁.returned) ∧
    (C = none → G.entries = [] →
      ∃ r₁ r₂, createCurrentLogLevel G C = .ok r₁ ∧
        createCurrentLogLevel r₁.activeLogLevels r₁.returned = .ok r₂ ∧
        r₂.returned = r₁.returned ∧ r₁.returned = none) ∧
    (C = none → G.entries ≠ [] → createCurrentLogLevel G C = .error .nilMapAssignment) := by
  refine ⟨?_, ?_, ?_⟩
  · intro c hc
    subst hc
    obtain ⟨c', hc', hlook⟩ := loop_alloc (getDefaultLogLevel (some c)) G.entries c
    have hkeys := loop_keys_present _ G.entries c c' hlook
    refine ⟨⟨G, some c', some c'⟩, ⟨G, some c', some c'⟩, ?_, ?_, rfl⟩
    · simp [createCurrentLogLevel, hc']
    · simp [createCurrentLogLevel, loop_of_keys_subset _ G.entries c' hkeys]
  · intro hc hG
    subst hc
    exact ⟨⟨G, none, none⟩, ⟨G, none, none⟩, createCurrentLogLevel_nil_nil G hG,
      createCurrentLogLevel_nil_nil G hG, rfl, rfl⟩
  · intro hc hG
    subst hc
    exact createCurrentLogLevel_nil_component G hG

/-- C10 at concrete maps: the global map (pkgA: DEBUG) with the component map
(default: WARN), and with the nil component map that a failed component listing leaves. -/
theorem createCurrentLogLevel_idempotent_witness :
    (∃ r₁ r₂,
      createCurrentLogLevel (some [("pkgA", "DEBUG")]) (some [("default", "WARN")]) = .ok r₁ ∧
        createCurrentLogLevel r₁.activeLogLevels r₁.returned = .ok r₂ ∧
        r₂.returned = r₁.returned) ∧
    createCurrentLogLevel (some [("pkgA", "DEBUG")]) none = .error .nilMapAssignment :=
  ⟨(createCurrentLogLevel_idempotent (some [("pkgA", "DEBUG")])
      (some [("default", "WARN")])).1 _ rfl,
   (createCurrentLogLevel_idempotent (some [("pkgA", "DEBUG")]) none).2.2 rfl (by decide)⟩

/-! ## Lemmas on splitting -/

theorem indexOf_eq_none_iff (sep s : List Char) : indexOf sep s = none ↔ ¬ sep <:+: s := by
  induction s with
  | nil =>
    cases sep with
    | nil => simp [indexOf]
    | cons a t => simp [indexOf, List.isPrefixOf]
  | cons c t ih =>
    by_cases hp : sep <+: c :: t
    · have : sep.isPrefixOf (c :: t) = true := List.isPrefixOf_iff_prefix.2 hp
      simp [indexOf, this, hp.isInfix]
    · have : sep.isPrefixOf (c :: t) = false := by
        cases h : sep.isPrefixOf (c :: t) with
        | false => rfl
        | true => exact absurd (List.isPrefixOf_iff_prefix.1 h) hp
      simp [indexOf, this, ih, List.infix_cons_iff, hp]

theorem indexOf_at_start (sep s : List Char) (h : sep <+: s) : indexOf sep s = some 0 := by
  have hp : sep.isPrefixOf s = true := List.isPrefixOf_iff_prefix.2 h
  cases s with
  | nil => simp [indexOf, hp]
  | cons c t => simp [indexOf, hp]

theorem indexOf_after_clean (d : Char) (ty a r : List Char) (ha : d ∉ a) :
    indexOf (d :: ty) (a ++ (d :: ty) ++ r) = some a.length := by
  induction a with
  | nil => exact indexOf_at_start _ _ ⟨r, by simp⟩
  | cons x a ih =>
    have hx : x ≠ d := fun e => ha (by simp [e])
    have ha' : d ∉ a := fun h => ha (by simp [h])
    have hne : (d :: ty).isPrefixOf (x :: (a ++ (d :: ty) ++ r)) = false := by
      simp [List.isPrefixOf, Ne.symm hx]
    have hih := ih ha'
    show indexOf (d :: ty) (x :: (a ++ (d :: ty) ++ r)) = some (a.length + 1)
    rw [indexOf, hne, hih]
    rfl

theorem loop_one (sep : List Char) (k n : Nat) (s : List Char) (h : indexOf sep s = none) :
    genSplit.loop sep k n s = [s] := by
  cases n with
  | zero => rfl
  | succ n => simp [genSplit.loop, h]

theorem loop_two (sep a b : List Char) (k n : Nat) (hk : k ≤ sep.length)
    (hidx : indexOf sep (a ++ sep ++ b) = some a.length) (hb : indexOf sep b = none) :
    genSplit.loop sep k (n + 1) (a ++ sep ++ b) = [a ++ sep.take k, b] := by
  have htake : List.take (a.length + k) (a ++ sep ++ b) = a ++ sep.take k := by
    rw [List.append_assoc, List.take_append, List.take_append_of_le_length hk]
  have hdrop : List.drop (a.length + sep.length) (a ++ sep ++ b) = b := by
    rw [← List.length_append, List.drop_left]
  rw [genSplit.loop, hidx]
  simp only [htake, hdrop, loop_one sep k n b hb]

theorem countLoop_pos (sep s : List Char) (i : Nat) (h : indexOf sep s = some i) (hs : s ≠ []) :
    ∃ n, countLoop sep s.length s = n + 1 := by
  cases s with
  | nil => exact absurd rfl hs
  | cons c t => exact ⟨countLoop sep t.length (List.drop (i + sep.length) (c :: t)), by
      simp only [List.length_cons, countLoop, h]⟩

theorem genSplit_one (s sep : String) (k : Nat) (hsep : sep.data ≠ [])
    (h : ¬ sep.data <:+: s.data) : genSplit s sep k = [s] := by
  have hidx : indexOf sep.data s.data = none := (indexOf_eq_none_iff _ _).2 h
  simp [genSplit, hsep, loop_one _ _ _ _ hidx]

theorem genSplit_two (s sep a b : String) (k : Nat) (hk : k ≤ sep.data.length)
    (hs : s.data = a.data ++ sep.data ++ b.data) (hsep : sep.data ≠ [])
    (hidx : indexOf sep.data s.data = some a.data.length) (hb : ¬ sep.data <:+: b.data) :
    genSplit s sep k = [⟨a.data ++ sep.data.take k⟩, b] := by
  have hne : s.data ≠ [] := by
    rw [hs]
    cases hsd : sep.data with
    | nil => exact absurd hsd hsep
    | cons x t => simp
  obtain ⟨n, hn⟩ := countLoop_pos sep.data s.data _ hidx hne
  have hcount : Count s sep = n + 1 := by
    simp only [Count, hsep, if_false]
    exact hn
  have hb' : indexOf sep.data b.data = none := (indexOf_eq_none_iff _ _).2 hb
  rw [hs] at hidx
  simp only [genSplit, hsep, if_false, hcount, hs, loop_two sep.data a.data b.data k n hk hidx hb']
  rfl

theorem index_zero_of_index_one {α : Type} (xs : List α) (x : α) (h : index xs 1 = .ok x) :
    ∃ y, index xs 0 = .ok y := by
  cases xs with
  | nil => simp [index] at h
  | cons y t => exact ⟨y, rfl⟩

theorem index_one_singleton {α : Type} (x : α) :
    index [x] 1 = .error (.indexOutOfRange 1 1) := rfl

/-! ## Key codec: parsing of raw watch keys -/

/-- C4, as the code behaves: the parse of the key `makeConfigPath() + "/" + leaf` returns
the component label as `Key` and the leaf as `PackageName` when the config prefix is
non-empty and does not occur again in what follows it, the label and the leaf hold no
`/`, and the leaf does not begin with the name of the config type. -/
theorem processKVStoreWatchEvents_leaf_roundtrip (c : ComponentConfig) (leaf : String) (t : Int) (v : String)
    (hP : c.cManager.KvStoreConfigPrefix ≠ "")
    (hocc : ¬ c.cManager.KvStoreConfigPrefix.data <:+:
      (c.componentLabel ++ "/" ++ c.configType.String ++ "/" ++ leaf).data)
    (hlabel : '/' ∉ c.componentLabel.data)
    (hleaf : '/' ∉ leaf.data)
    (hty : ¬ c.configType.String.data <+: leaf.data) :
    processKVStoreWatchEvents.body c ⟨t, makeConfigPath c ++ "/" ++ leaf, v⟩ =
      .ok ⟨t, c.componentLabel, leaf, v⟩ := by
  obtain ⟨⟨P⟩, label, ty⟩ := c
  simp only at hP hocc hlabel hty
  have hPd : P.data ≠ [] := fun h => hP (String.ext h)
  have h1 : SplitAfter (makeConfigPath ⟨⟨P⟩, label, ty⟩ ++ "/" ++ leaf) P =
      [P, label ++ "/" ++ ty.String ++ "/" ++ leaf] := by
    have := genSplit_two (makeConfigPath ⟨⟨P⟩, label, ty⟩ ++ "/" ++ leaf) P ""
      (label ++ "/" ++ ty.String ++ "/" ++ leaf) P.length (le_refl _)
      (by simp [makeConfigPath, String.data_append]) hPd
      (indexOf_at_start _ _ ⟨(label ++ "/" ++ ty.String ++ "/" ++ leaf).data, by
        simp [makeConfigPath, String.data_append]⟩) hocc
    rw [SplitAfter, this]
    have ht : List.take P.length P.data = P.data := List.take_length _
    simp only [ht]
    rfl
  have hsep : ("/" ++ ty.String).data = '/' :: ty.String.data := by
    simp [String.data_append]
  have hinf : ¬ ("/" ++ ty.String).data <:+: ("/" ++ leaf).data := by
    rw [hsep]
    have hl : ("/" ++ leaf).data = '/' :: leaf.data := by simp [String.data_append]
    rw [hl, List.infix_cons_iff]
    rintro (hpre | hin)
    · exact hty ((List.prefix_cons_inj _).1 hpre)
    · exact hleaf (hin.subset (by simp))
  have h2 : Split (label ++ "/" ++ ty.String ++ "/" ++ leaf) ("/" ++ ty.String) =
      [label, "/" ++ leaf] := by
    have := genSplit_two (label ++ "/" ++ ty.String ++ "/" ++ leaf) ("/" ++ ty.String) label
      ("/" ++ leaf) 0 (Nat.zero_le _) (by simp [String.data_append]) (by simp [hsep])
      (by
        rw [hsep]
        have := indexOf_after_clean '/' ty.String.data label.data ("/" ++ leaf).data hlabel
        simpa [String.data_append] using this) hinf
    rw [Split, this]
    simp only [List.take_zero, List.append_nil]
  have h3 : SplitAfter ("/" ++ leaf) "/" = ["/", leaf] := by
    have := genSplit_two ("/" ++ leaf) "/" "" leaf 1 (by decide)
      (by simp [String.data_append]) (by decide)
      (indexOf_at_start _ _ ⟨leaf.data, by simp [String.data_append]⟩)
      (by
        intro hin
        exact hleaf (hin.subset (by simp)))
    show genSplit ("/" ++ leaf) "/" 1 = _
    rw [this]
    rfl
  simp only [processKVStoreWatchEvents.body, h1, index, List.get?, h2, h3, bind, Except.bind, pure,
    Except.pure]

/-- A notification on which the loop body panics ends the run: what was emitted is what the
earlier notifications produced. -/
theorem run_append_bad (c : ComponentConfig) (before after : List Event) (ev : Event) (p : GoPanic)
    (hbefore : ∀ e ∈ before, ∃ out, processKVStoreWatchEvents.body c e = .ok out)
    (hev : processKVStoreWatchEvents.body c ev = .error p) :
    (processKVStoreWatchEvents c (before ++ ev :: after)).panicked = some p ∧
    (processKVStoreWatchEvents c (before ++ ev :: after)).emitted =
      (processKVStoreWatchEvents c before).emitted ∧
    (processKVStoreWatchEvents c before).panicked = none := by
  induction before with
  | nil => simp [processKVStoreWatchEvents, hev]
  | cons e rest ih =>
    obtain ⟨out, hout⟩ := hbefore e (by simp)
    have := ih (fun e' he' => hbefore e' (by simp [he']))
    simp [processKVStoreWatchEvents, hout, this]

/-- Witness of C4 (amended) on the prefix `service/voltha/config/`, label `rw-core`. -/
theorem processKVStoreWatchEvents_leaf_roundtrip_witness :
    processKVStoreWatchEvents.body ⟨⟨"service/voltha/config/"⟩, "rw-core", .ConfigTypeLogLevel⟩
      ⟨0, makeConfigPath ⟨⟨"service/voltha/config/"⟩, "rw-core", .ConfigTypeLogLevel⟩ ++ "/" ++ "pkgA",
        "\"DEBUG\""⟩ = .ok ⟨0, "rw-core", "pkgA", "\"DEBUG\""⟩ :=
  processKVStoreWatchEvents_leaf_roundtrip
    ⟨⟨"service/voltha/config/"⟩, "rw-core", .ConfigTypeLogLevel⟩ "pkgA" 0 "\"DEBUG\""
    (by decide) (by decide) (by decide) (by decide) (by decide)

/-- C4 fails as stated.  With labels free of `/`: an empty prefix makes the parse panic; so
does a prefix that occurs again right after itself; a prefix that occurs in the leaf, or a
leaf holding a `/`, gives a `PackageName` other than the leaf; a leaf that begins with the
config type name makes the parse panic. -/
theorem processKVStoreWatchEvents_leaf_roundtrip_fails :
    processKVStoreWatchEvents.body ⟨⟨""⟩, "rw-core", .ConfigTypeLogLevel⟩
      ⟨0, makeConfigPath ⟨⟨""⟩, "rw-core", .ConfigTypeLogLevel⟩ ++ "/" ++ "pkgA", "v"⟩ =
        .error (.indexOutOfRange 1 1) ∧
    processKVStoreWatchEvents.body ⟨⟨"cfg-"⟩, "cfg-agent", .ConfigTypeLogLevel⟩
      ⟨0, makeConfigPath ⟨⟨"cfg-"⟩, "cfg-agent", .ConfigTypeLogLevel⟩ ++ "/" ++ "pkgA", "v"⟩ =
        .error (.indexOutOfRange 1 1) ∧
    processKVStoreWatchEvents.body ⟨⟨"p"⟩, "core", .ConfigTypeKafka⟩
      ⟨0, makeConfigPath ⟨⟨"p"⟩, "core", .ConfigTypeKafka⟩ ++ "/" ++ "pkgA", "v"⟩ =
        .ok ⟨0, "core", "p", "v"⟩ ∧
    processKVStoreWatchEvents.body ⟨⟨"service/voltha/config/"⟩, "rw-core", .ConfigTypeLogLevel⟩
      ⟨0, makeConfigPath ⟨⟨"service/voltha/config/"⟩, "rw-core", .ConfigTypeLogLevel⟩ ++ "/" ++
        "github.com/opencord", "v"⟩ = .ok ⟨0, "rw-core", "github.com/", "v"⟩ ∧
    processKVStoreWatchEvents.body ⟨⟨"service/voltha/config/"⟩, "rw-core", .ConfigTypeLogLevel⟩
      ⟨0, makeConfigPath ⟨⟨"service/voltha/config/"⟩, "rw-core", .ConfigTypeLogLevel⟩ ++ "/" ++
        "loglevel", "v"⟩ = .error (.indexOutOfRange 1 1) :=
  ⟨by rfl, by rfl, by rfl, by rfl, by rfl⟩

/-- C5, as the code behaves: a raw key that lacks the (non-empty) config prefix, or whose
text after the prefix (`ky[1]`) lacks the `/` + configType segment, or whose text after
that segment (`configKey[1]`) holds no `/`, makes the parse panic with an index out of
range.  No event is emitted for it and the task ends there: the run emits what the
notifications before it produced and nothing for the notifications after it. -/
theorem processKVStoreWatchEvents_malformed_key_aborts (c : ComponentConfig)
    (before after : List Event) (ev : Event)
    (hbefore : ∀ e ∈ before, ∃ out, processKVStoreWatchEvents.body c e = .ok out)
    (hbad :
      (c.cManager.KvStoreConfigPrefix ≠ "" ∧
        ¬ c.cManager.KvStoreConfigPrefix.data <:+: ev.Key.data) ∨
      (∃ ky1, index (SplitAfter ev.Key c.cManager.KvStoreConfigPrefix) 1 = .ok ky1 ∧
        ¬ ("/" ++ c.configType.String).data <:+: ky1.data) ∨
      (∃ ky1 ck1, index (SplitAfter ev.Key c.cManager.KvStoreConfigPrefix) 1 = .ok ky1 ∧
        index (Split ky1 ("/" ++ c.configType.String)) 1 = .ok ck1 ∧ '/' ∉ ck1.data)) :
    processKVStoreWatchEvents.body c ev = .error (.indexOutOfRange 1 1) ∧
    (processKVStoreWatchEvents c (before ++ ev :: after)).panicked =
      some (.indexOutOfRange 1 1) ∧
    (processKVStoreWatchEvents c (before ++ ev :: after)).emitted =
      (processKVStoreWatchEvents c before).emitted ∧
    (processKVStoreWatchEvents c before).panicked = none := by
  have hsep : ("/" ++ c.configType.String).data ≠ [] := by
    simp [String.data_append]
  have hbody : processKVStoreWatchEvents.body c ev = .error (.indexOutOfRange 1 1) := by
    rcases hbad with ⟨hP, hno⟩ | ⟨ky1, hky, hno⟩ | ⟨ky1, ck1, hky, hck, hno⟩
    · have hPd : c.cManager.KvStoreConfigPrefix.data ≠ [] := fun h => hP (String.ext h)
      have h1 : SplitAfter ev.Key c.cManager.KvStoreConfigPrefix = [ev.Key] :=
        genSplit_one _ _ _ hPd hno
      simp only [processKVStoreWatchEvents.body, h1, index_one_singleton, bind, Except.bind]
    · have h2 : Split ky1 ("/" ++ c.configType.String) = [ky1] := genSplit_one _ _ _ hsep hno
      simp only [processKVStoreWatchEvents.body, hky, h2, index_one_singleton, bind, Except.bind]
    · have h3 : SplitAfter ck1 "/" = [ck1] :=
        genSplit_one _ _ _ (by decide) (fun hin => hno (hin.subset (by simp)))
      obtain ⟨ck0, hck0⟩ := index_zero_of_index_one _ _ hck
      simp only [processKVStoreWatchEvents.body, hky, hck, hck0, h3, index_one_singleton, bind,
        Except.bind]
  exact ⟨hbody, run_append_bad c before after ev _ hbefore hbody⟩

/-- Witness of C5 (amended): a key without the prefix between two well-formed ones. -/
theorem processKVStoreWatchEvents_malformed_key_aborts_witness :
    (processKVStoreWatchEvents ⟨⟨"service/voltha/config/"⟩, "rw-core", .ConfigTypeLogLevel⟩
      ([⟨0, "service/voltha/config/rw-core/loglevel/pkgA", "v"⟩] ++
        ⟨0, "rw-core/loglevel/pkgA", "v"⟩ ::
        [⟨0, "service/voltha/config/rw-core/loglevel/pkgB", "v"⟩])).panicked =
      some (.indexOutOfRange 1 1) :=
  (processKVStoreWatchEvents_malformed_key_aborts
    ⟨⟨"service/voltha/config/"⟩, "rw-core", .ConfigTypeLogLevel⟩
    [⟨0, "service/voltha/config/rw-core/loglevel/pkgA", "v"⟩]
    [⟨0, "service/voltha/config/rw-core/loglevel/pkgB", "v"⟩]
    ⟨0, "rw-core/loglevel/pkgA", "v"⟩
    (by
      intro e he
      rw [List.mem_singleton] at he
      subst he
      exact ⟨_, rfl⟩)
    (Or.inl ⟨by decide, by decide⟩)).2.1

/-- C5 fails as stated: a key without the config prefix is not reported and skipped; the
parse panics, and a run over that notification followed by a well-formed one emits
nothing, although the second notification alone yields an event. -/
theorem processKVStoreWatchEvents_not_fail_closed :
    processKVStoreWatchEvents.body ⟨⟨"service/voltha/config/"⟩, "rw-core", .ConfigTypeLogLevel⟩
      ⟨0, "rw-core/loglevel/pkgA", "v"⟩ = .error (.indexOutOfRange 1 1) ∧
    processKVStoreWatchEvents ⟨⟨"service/voltha/config/"⟩, "rw-core", .ConfigTypeLogLevel⟩
      [⟨0, "service/voltha/config/rw-core/loglevel/pkgB", "v"⟩] =
        ⟨[⟨0, "rw-core", "pkgB", "v"⟩], none⟩ ∧
    processKVStoreWatchEvents ⟨⟨"service/voltha/config/"⟩, "rw-core", .ConfigTypeLogLevel⟩
      [⟨0, "rw-core/loglevel/pkgA", "v"⟩,
       ⟨0, "service/voltha/config/rw-core/loglevel/pkgB", "v"⟩] =
        ⟨[], some (.indexOutOfRange 1 1)⟩ :=
  ⟨by rfl, by rfl, by rfl⟩

/-! ## Lemmas on the JSON text -/

theorem entry_eq_of_key_eq (es : Entries) (nd : NodupKeys es) (a b : String × String)
    (ha : a ∈ es) (hb : b ∈ es) (h : a.1 = b.1) : a = b :=
  List.inj_on_of_nodup_map nd ha hb h

theorem sortEntries_perm (es : Entries) : (sortEntries es).Perm es :=
  List.perm_insertionSort _ es

theorem sortEntries_pairwise (es : Entries) :
    (sortEntries es).Pairwise (fun a b => a.1 ≤ b.1) := by
  haveI : IsTotal (String × String) (fun a b => a.1 ≤ b.1) := ⟨fun a b => le_total a.1 b.1⟩
  haveI : IsTrans (String × String) (fun a b => a.1 ≤ b.1) :=
    ⟨fun _ _ _ hab hbc => le_trans hab hbc⟩
  exact List.sorted_insertionSort (fun a b : String × String => a.1 ≤ b.1) es

theorem sortEntries_eq_of_perm (es₁ es₂ : Entries) (h : es₁.Perm es₂) (nd : NodupKeys es₁) :
    sortEntries es₁ = sortEntries es₂ := by
  refine @List.Perm.eq_of_sorted _ (fun a b : String × String => a.1 ≤ b.1) _ _ ?_ ?_ ?_ ?_
  · intro a b ha hb hab hba
    have ha' : a ∈ es₁ := (sortEntries_perm es₁).subset ha
    have hb' : b ∈ es₁ := h.symm.subset ((sortEntries_perm es₂).subset hb)
    exact entry_eq_of_key_eq es₁ nd a b ha' hb' (le_antisymm hab hba)
  · exact sortEntries_pairwise es₁
  · exact sortEntries_pairwise es₂
  · exact (sortEntries_perm es₁).trans (h.trans (sortEntries_perm es₂).symm)

theorem jsonMarshal_eq_of_perm (es₁ es₂ : Entries) (h : es₁.Perm es₂) (nd : NodupKeys es₁) :
    jsonMarshal (some es₁) = jsonMarshal (some es₂) := by
  simp only [jsonMarshal, sortEntries_eq_of_perm es₁ es₂ h nd]

theorem hexVal_hexDigit (k : Nat) (h : k < 16) : hexVal (hexDigit k) = k := by
  interval_cases k <;> decide

theorem unescapeOne_raw (c : Char) (A : List Char) (h : c ≠ '\\') :
    unescapeOne (c :: A) = some (c, A) := by
  simp [unescapeOne, h]

theorem unescapeOne_hex00 (h1 h2 : Char) (A : List Char) :
    unescapeOne ('\\' :: 'u' :: '0' :: '0' :: h1 :: h2 :: A) =
      some (Char.ofNat (hexVal h1 * 16 + hexVal h2), A) := by
  simp [unescapeOne]

theorem unescapeOne_escapeChar (c : Char) (A : List Char) :
    unescapeOne (escapeChar c ++ A) = some (c, A) := by
  unfold escapeChar
  split_ifs with h1 h2 h3 h4 h5 h6 h7
  · have hc : c ≠ '\\' := by
      intro e
      subst e
      revert h2
      decide
    exact unescapeOne_raw c A hc
  · rcases h3 with rfl | rfl <;> rfl
  · subst h4; rfl
  · subst h5; rfl
  · subst h6; rfl
  · have hlt : c.toNat / 16 < 16 := by omega
    have hlt2 : c.toNat % 16 < 16 := Nat.mod_lt _ (by decide)
    show unescapeOne ('\\' :: 'u' :: '0' :: '0' :: hexDigit (c.toNat / 16) ::
      hexDigit (c.toNat % 16) :: A) = some (c, A)
    rw [unescapeOne_hex00, hexVal_hexDigit _ hlt, hexVal_hexDigit _ hlt2, Nat.div_add_mod']
    simp
  · rcases h7 with rfl | rfl <;> rfl
  · have hc : c ≠ '\\' := by
      intro e
      subst e
      exact h1 (by decide)
    exact unescapeOne_raw c A hc

theorem escapeChar_quote_head (d : Char) (A x : List Char) :
    '"' :: x ≠ escapeChar d ++ A := by
  intro h
  have h1 : unescapeOne ('"' :: x) = some (d, A) := by rw [h, unescapeOne_escapeChar]
  rw [unescapeOne_raw _ _ (by decide)] at h1
  have hd : d = '"' := by
    have := congrArg (fun o => o.map Prod.fst) h1
    simpa using this.symm
  subst hd
  revert h
  simp [escapeChar, htmlSafe]

theorem escapeChars_inj (a b x y : List Char)
    (h : escapeChars a ++ '"' :: x = escapeChars b ++ '"' :: y) : a = b ∧ x = y := by
  induction a generalizing b with
  | nil =>
    cases b with
    | nil => simpa [escapeChars] using h
    | cons d b' =>
      simp only [escapeChars, List.nil_append, List.append_assoc] at h
      exact absurd h (escapeChar_quote_head d _ x)
  | cons c a' ih =>
    cases b with
    | nil =>
      simp only [escapeChars, List.nil_append, List.append_assoc] at h
      exact absurd h.symm (escapeChar_quote_head c _ y)
    | cons d b' =>
      simp only [escapeChars, List.append_assoc] at h
      have h1 := congrArg unescapeOne h
      rw [unescapeOne_escapeChar, unescapeOne_escapeChar] at h1
      simp only [Option.some.injEq, Prod.mk.injEq] at h1
      obtain ⟨hcd, hrest⟩ := h1
      obtain ⟨hab, hxy⟩ := ih b' hrest
      exact ⟨by rw [hcd, hab], hxy⟩

theorem encodeString_inj (k k' : String) (X Y : List Char)
    (h : encodeString k ++ X = encodeString k' ++ Y) : k = k' ∧ X = Y := by
  simp only [encodeString, List.cons_append, List.append_assoc, List.singleton_append,
    List.cons.injEq, true_and] at h
  obtain ⟨hd, hxy⟩ := escapeChars_inj _ _ _ _ h
  exact ⟨String.ext hd, hxy⟩

theorem encodeEntries_cons (k v : String) (rest : Entries) :
    encodeEntries ((k, v) :: rest) = encodeString k ++ ':' :: encodeString v ++
      (match rest with
       | [] => []
       | e :: r => ',' :: encodeEntries (e :: r)) := by
  cases rest with
  | nil => simp [encodeEntries]
  | cons e r => simp [encodeEntries]

theorem encodeEntries_inj (es₁ es₂ : Entries) (X Y : List Char)
    (h : encodeEntries es₁ ++ '\x7d' :: X = encodeEntries es₂ ++ '\x7d' :: Y) : es₁ = es₂ := by
  induction es₁ generalizing es₂ with
  | nil =>
    cases es₂ with
    | nil => rfl
    | cons e r =>
      obtain ⟨k, v⟩ := e
      rw [encodeEntries_cons] at h
      simp [encodeEntries, encodeString] at h
  | cons e₁ r₁ ih =>
    obtain ⟨k, v⟩ := e₁
    cases es₂ with
    | nil =>
      rw [encodeEntries_cons] at h
      simp [encodeEntries, encodeString] at h
    | cons e₂ r₂ =>
      obtain ⟨k', v'⟩ := e₂
      rw [encodeEntries_cons, encodeEntries_cons] at h
      simp only [List.append_assoc] at h
      obtain ⟨hk, h2⟩ := encodeString_inj _ _ _ _ h
      simp only [List.cons_append, List.cons.injEq, true_and] at h2
      obtain ⟨hv, h3⟩ := encodeString_inj _ _ _ _ h2
      clear h h2
      subst hk hv
      cases r₁ with
      | nil =>
        cases r₂ with
        | nil => rfl
        | cons e r => simp at h3
      | cons e r =>
        cases r₂ with
        | nil => simp at h3
        | cons e' r' =>
          simp only [List.cons_append, List.cons.injEq, true_and] at h3
          rw [ih _ h3]

theorem jsonMarshal_inj (es₁ es₂ : Entries)
    (h : jsonMarshal (some es₁) = jsonMarshal (some es₂)) : es₁.Perm es₂ := by
  have hd := congrArg String.data h
  simp only [jsonMarshal, List.cons.injEq, true_and] at hd
  have hs : sortEntries es₁ = sortEntries es₂ := encodeEntries_inj _ _ [] [] hd
  have h1 : (sortEntries es₁).Perm es₁ := List.perm_insertionSort _ es₁
  have h2 : (sortEntries es₂).Perm es₂ := List.perm_insertionSort _ es₂
  rw [hs] at h1
  exact h1.symm.trans h2

theorem jsonMarshal_nil_ne (es : Entries) : jsonMarshal none ≠ jsonMarshal (some es) := by
  intro h
  have hd := congrArg String.data h
  simp [jsonMarshal] at hd

theorem jsonMarshal_inj_maps (m₁ m₂ : GoMap) (h : jsonMarshal m₁ = jsonMarshal m₂) :
    m₁.entries.Perm m₂.entries ∧ (m₁ = none ↔ m₂ = none) := by
  cases m₁ with
  | none =>
    cases m₂ with
    | none => exact ⟨List.Perm.refl _, Iff.rfl⟩
    | some es₂ => exact absurd h (jsonMarshal_nil_ne es₂)
  | some es₁ =>
    cases m₂ with
    | none => exact absurd h.symm (jsonMarshal_nil_ne es₁)
    | some es₂ => exact ⟨jsonMarshal_inj es₁ es₂ h, by simp⟩

/-! ## Change gate: the fingerprint -/

/-- C6, as the code behaves: two maps that are both allocated or both nil and hold the same
key/value pairs, enumerated in any two orders, get the same fingerprint.  The text that is
hashed for an allocated map lists exactly the pairs of the map, in ascending key order; the
text that is hashed for the nil map is `null`. -/
theorem GenerateLogConfigHash_same_content (md5Sum : String → Digest) (m₁ m₂ : GoMap)
    (h : m₁.entries.Perm m₂.entries) (nd : NodupKeys m₁.entries)
    (hnil : m₁ = none ↔ m₂ = none) :
    GenerateLogConfigHash md5Sum m₁ = GenerateLogConfigHash md5Sum m₂ ∧
    (∀ es, m₁ = some es →
      jsonMarshal m₁ = ⟨'\x7b' :: (encodeEntries (sortEntries es) ++ ['\x7d'])⟩ ∧
      (sortEntries es).Perm es ∧ (keysOf (sortEntries es)).Sorted (· ≤ ·)) ∧
    (m₁ = none → jsonMarshal m₁ = "null") := by
  refine ⟨?_, ?_, ?_⟩
  · cases m₁ with
    | none =>
      have : m₂ = none := hnil.1 rfl
      rw [this]
    | some es₁ =>
      cases m₂ with
      | none => simp at hnil
      | some es₂ =>
        simp only [GenerateLogConfigHash, jsonMarshal_eq_of_perm es₁ es₂ h nd]
  · intro es hes
    subst hes
    exact ⟨rfl, sortEntries_perm es, List.pairwise_map.2 (sortEntries_pairwise es)⟩
  · intro hm
    subst hm
    rfl

/-- Witness of C6 (amended): two pairs inserted in either order. -/
theorem GenerateLogConfigHash_same_content_witness :
    GenerateLogConfigHash (fun s _ => Fin.ofNat s.length) (some [("pkgA", "DEBUG"), ("default", "WARN")]) =
      GenerateLogConfigHash (fun s _ => Fin.ofNat s.length) (some [("default", "WARN"), ("pkgA", "DEBUG")]) :=
  (GenerateLogConfigHash_same_content (fun s _ => Fin.ofNat s.length)
    (some [("pkgA", "DEBUG"), ("default", "WARN")])
    (some [("default", "WARN"), ("pkgA", "DEBUG")]) (List.Perm.swap _ _ _) (by decide)
    (by simp)).1

/-- C6 fails as stated: the nil map and the empty allocated map hold the same (empty) set
of pairs, yet the one is hashed from the text `null` and the other from the text of the
empty object, so no digest function that tells these two texts apart gives the two maps
the same fingerprint (and there are digest functions that give different ones). -/
theorem GenerateLogConfigHash_nil_differs_from_empty :
    GoMap.entries none = GoMap.entries (some []) ∧
    jsonMarshal none = "null" ∧ jsonMarshal (some []) = "\x7b\x7d" ∧
    (¬ ∃ md5Sum : String → Digest, md5Sum "null" ≠ md5Sum "\x7b\x7d" ∧
      GenerateLogConfigHash md5Sum none = GenerateLogConfigHash md5Sum (some [])) ∧
    (∃ md5Sum : String → Digest,
      GenerateLogConfigHash md5Sum none ≠ GenerateLogConfigHash md5Sum (some [])) := by
  refine ⟨rfl, rfl, rfl, ?_, ?_⟩
  · rintro ⟨md5Sum, hne, heq⟩
    exact hne heq
  · exact ⟨fun s _ => Fin.ofNat s.length, fun h => absurd (congrFun h 0) (by decide)⟩

/-- C7, as the code behaves: two maps (keys and values being valid UTF-8 text, as every
`String` is) whose pairs differ in a key or a value are hashed from two different texts.
Their fingerprints are the digests of these two texts, so they agree exactly when the
digest function gives the same value on these two different texts. -/
theorem GenerateLogConfigHash_differs_unless_collision (md5Sum : String → Digest)
    (m₁ m₂ : GoMap) (hdiff : ¬ m₁.entries.Perm m₂.entries) :
    jsonMarshal m₁ ≠ jsonMarshal m₂ ∧
    (GenerateLogConfigHash md5Sum m₁ = GenerateLogConfigHash md5Sum m₂ ↔
      jsonMarshal m₁ ≠ jsonMarshal m₂ ∧
        md5Sum (jsonMarshal m₁) = md5Sum (jsonMarshal m₂)) := by
  have hne : jsonMarshal m₁ ≠ jsonMarshal m₂ :=
    fun h => hdiff (jsonMarshal_inj_maps m₁ m₂ h).1
  exact ⟨hne, fun h => ⟨hne, h⟩, fun h => h.2⟩

/-- Witness of C7 (amended): two maps that differ in the value of `default` are hashed
from different texts, and a digest that tells these texts apart gives different
fingerprints. -/
theorem GenerateLogConfigHash_differs_unless_collision_witness :
    jsonMarshal (some [("default", "DEBUG")]) ≠ jsonMarshal (some [("default", "INFO")]) ∧
    GenerateLogConfigHash (fun s _ => Fin.ofNat s.length) (some [("default", "DEBUG")]) ≠
      GenerateLogConfigHash (fun s _ => Fin.ofNat s.length) (some [("default", "INFO")]) :=
  ⟨(GenerateLogConfigHash_differs_unless_collision (fun s _ => Fin.ofNat s.length)
      (some [("default", "DEBUG")]) (some [("default", "INFO")])
      (fun h => absurd (List.perm_singleton.1 h) (by decide))).1,
   fun heq => absurd
    (congrFun (((GenerateLogConfigHash_differs_unless_collision (fun s _ => Fin.ofNat s.length)
      (some [("default", "DEBUG")]) (some [("default", "INFO")])
      (fun h => absurd (List.perm_singleton.1 h) (by decide))).2.1 heq).2) 0)
    (by decide)⟩

/-- C7 fails as stated: whatever 16-byte digest function is used, there are two maps with
different contents and the same fingerprint (infinitely many maps, finitely many digests). -/
theorem GenerateLogConfigHash_not_injective :
    ¬ ∃ md5Sum : String → Digest, ∀ es₁ es₂ : Entries, NodupKeys es₁ → NodupKeys es₂ →
      ¬ es₁.Perm es₂ →
      GenerateLogConfigHash md5Sum (some es₁) ≠ GenerateLogConfigHash md5Sum (some es₂) := by
  rintro ⟨md5Sum, h⟩
  let f : ℕ → Digest := fun n =>
    GenerateLogConfigHash md5Sum (some [("default", ⟨List.replicate n 'a'⟩)])
  apply not_injective_infinite_finite f
  intro n m hnm
  by_contra hne
  refine h [("default", ⟨List.replicate n 'a'⟩)] [("default", ⟨List.replicate m 'a'⟩)]
    (by simp [NodupKeys, keysOf]) (by simp [NodupKeys, keysOf]) ?_ hnm
  intro hp
  have := List.perm_singleton.1 hp
  simp only [List.cons.injEq, Prod.mk.injEq, true_and, and_true] at this
  have hl := congrArg String.data this
  simp only [List.replicate_inj] at hl
  exact hne hl.1

/-! ## Level applier and change gate -/

theorem loop_prefix_nodup (level : String) (g c c' : Entries)
    (h : createCurrentLogLevel.loop level g (some c) = .ok (some c')) :
    c <+: c' ∧ (NodupKeys c → NodupKeys c') := by
  induction g generalizing c with
  | nil =>
    simp only [createCurrentLogLevel.loop, Except.ok.injEq, Option.some.injEq] at h
    subst h
    exact ⟨List.prefix_refl _, id⟩
  | cons e rest ih =>
    obtain ⟨a, l⟩ := e
    by_cases hmem : a ∈ keysOf c
    · have hany : (c.any fun e => a == e.1) = true := (any_key_eq_true_iff a c).2 hmem
      simp only [createCurrentLogLevel.loop, GoMap.entries, hany] at h
      exact ih c h
    · have hany : (c.any fun e => a == e.1) = false := by
        cases hq : (c.any fun e => a == e.1) with
        | false => rfl
        | true => exact absurd ((any_key_eq_true_iff a c).1 hq) hmem
      simp only [createCurrentLogLevel.loop, GoMap.entries, hany, GoMap.assign,
        setEntry_of_not_mem a _ c hmem] at h
      obtain ⟨hpre, hnd⟩ := ih _ h
      refine ⟨(List.prefix_append c _).trans hpre, fun nd => hnd ?_⟩
      simp only [NodupKeys, keysOf, List.map_append, List.map_cons, List.map_nil] at nd ⊢
      rw [List.nodup_append]
      refine ⟨nd, List.nodup_singleton _, ?_⟩
      intro x hx hx'
      rw [List.mem_singleton] at hx'
      subst hx'
      exact hmem hx

theorem createCurrentLogLevel_of_loop (G : GoMap) (c c' : Entries)
    (h : createCurrentLogLevel.loop (getDefaultLogLevel (some c)) G.entries (some c) =
      .ok (some c')) :
    createCurrentLogLevel G (some c) = .ok ⟨G, some c', some c'⟩ := by
  simp [createCurrentLogLevel, h]

theorem UpdateLogLevels_alloc (log : LogPackage) (logger : Logger) (es : Entries) :
    ∃ merged, UpdateLogLevels log logger (some es) =
        .ok ⟨some merged, merged.map (UpdateLogLevels.call log),
          (merged.map (UpdateLogLevels.call log)).foldl Logger.apply logger⟩ ∧
      es <+: merged ∧ (NodupKeys es → NodupKeys merged) := by
  obtain ⟨c', hc', -⟩ := loop_alloc (getDefaultLogLevel (some es))
    (GoMap.entries (mapOrNil (getActiveLogLevel log logger))) es
  refine ⟨c', ?_, loop_prefix_nodup _ _ _ _ hc'⟩
  have hm := createCurrentLogLevel_of_loop _ es c' hc'
  simp only [UpdateLogLevels]
  rw [hm]
  rfl

theorem foldl_apply_defaultLevel (cs : List LogCall) (logger : Logger) (x : Int)
    (hall : ∀ lv, LogCall.SetDefaultLogLevel lv ∈ cs → lv = x)
    (hex : logger.defaultLevel = x ∨ ∃ lv, LogCall.SetDefaultLogLevel lv ∈ cs) :
    (cs.foldl Logger.apply logger).defaultLevel = x := by
  induction cs generalizing logger with
  | nil =>
    rcases hex with h | ⟨lv, hlv⟩
    · exact h
    · simp at hlv
  | cons c rest ih =>
    simp only [List.foldl_cons]
    apply ih
    · intro lv hlv
      exact hall lv (List.mem_cons_of_mem _ hlv)
    · cases c with
      | SetDefaultLogLevel lv =>
        left
        exact hall lv (by simp)
      | SetPackageLogLevel p lv =>
        rcases hex with h | ⟨lv', hlv'⟩
        · left
          exact h
        · right
          refine ⟨lv', ?_⟩
          simpa using hlv'

theorem call_eq_setDefault (log : LogPackage) (e : String × String) (lv : Int)
    (h : UpdateLogLevels.call log e = .SetDefaultLogLevel lv) :
    e.1 = "default" ∧ lv = log.StringToInt e.2 := by
  unfold UpdateLogLevels.call at h
  by_cases hk : e.1 = "default"
  · simp only [hk, beq_self_eq_true, if_true, LogCall.SetDefaultLogLevel.injEq] at h
    exact ⟨hk, h.symm⟩
  · have hb : (e.1 == "default") = false := by simpa using hk
    simp [hb] at h

/-- C9: for an allocated map `m` with distinct keys, `UpdateLogLevels` returns, and the
setter calls it makes are those of the entries of the merged map, one entry per key.
Every entry of `m` is among these entries with its own value: for a key other than
`default` the package named by the key with `#` replaced by `/` is set to the level
named by the value, and for `default` the one default-level call carries the value of
`m`, which is the default level of the engine afterwards. -/
theorem UpdateLogLevels_applies_each_entry (log : LogPackage) (logger : Logger) (es : Entries)
    (nd : NodupKeys es) :
    ∃ out, UpdateLogLevels log logger (some es) = .ok out ∧
      out.calls = out.logLevel.entries.map (UpdateLogLevels.call log) ∧
      NodupKeys out.logLevel.entries ∧
      (∀ e ∈ es, e ∈ out.logLevel.entries) ∧
      (∀ k v, (k, v) ∈ es → k ≠ "default" →
        LogCall.SetPackageLogLevel (ReplaceAll k '#' '/') (log.StringToInt v) ∈ out.calls) ∧
      (∀ v, ("default", v) ∈ es →
        LogCall.SetDefaultLogLevel (log.StringToInt v) ∈ out.calls ∧
        (∀ lv, LogCall.SetDefaultLogLevel lv ∈ out.calls → lv = log.StringToInt v) ∧
        out.logger.defaultLevel = log.StringToInt v) := by
  obtain ⟨merged, hout, hpre, hnd⟩ := UpdateLogLevels_alloc log logger es
  have hndm : NodupKeys merged := hnd nd
  have hsub : ∀ e ∈ es, e ∈ merged := fun e he => hpre.subset he
  refine ⟨_, hout, rfl, hndm, hsub, ?_, ?_⟩
  · intro k v hkv hk
    have : UpdateLogLevels.call log (k, v) =
        LogCall.SetPackageLogLevel (ReplaceAll k '#' '/') (log.StringToInt v) := by
      have hb : (k == "default") = false := by simpa using hk
      simp [UpdateLogLevels.call, hb]
    rw [← this]
    exact List.mem_map_of_mem _ (hsub _ hkv)
  · intro v hv
    have hcall : UpdateLogLevels.call log ("default", v) =
        LogCall.SetDefaultLogLevel (log.StringToInt v) := by
      simp [UpdateLogLevels.call]
    have hmem : LogCall.SetDefaultLogLevel (log.StringToInt v) ∈
        merged.map (UpdateLogLevels.call log) := by
      rw [← hcall]
      exact List.mem_map_of_mem _ (hsub _ hv)
    have hall : ∀ lv, LogCall.SetDefaultLogLevel lv ∈ merged.map (UpdateLogLevels.call log) →
        lv = log.StringToInt v := by
      intro lv hlv
      obtain ⟨e, he, hce⟩ := List.mem_map.1 hlv
      obtain ⟨hk, hl⟩ := call_eq_setDefault log e lv hce
      have : e = ("default", v) := entry_eq_of_key_eq merged hndm e _ he (hsub _ hv) hk
      rw [hl, this]
    exact ⟨hmem, hall, foldl_apply_defaultLevel _ _ _ hall (Or.inr ⟨_, hmem⟩)⟩

/-- Witness of C9 on a map with a default and one package entry. -/
theorem UpdateLogLevels_applies_each_entry_witness :
    ∃ out, UpdateLogLevels sampleLog ⟨3, [("github.com/opencord/pkg", 3)]⟩
        (some [("default", "INFO"), ("main#sub", "DEBUG")]) = .ok out ∧
      LogCall.SetPackageLogLevel "main/sub" 0 ∈ out.calls ∧
      out.logger.defaultLevel = 1 := by
  obtain ⟨out, hout, -, -, -, hpkg, hdflt⟩ := UpdateLogLevels_applies_each_entry sampleLog
    ⟨3, [("github.com/opencord/pkg", 3)]⟩ [("default", "INFO"), ("main#sub", "DEBUG")]
    (by decide)
  exact ⟨out, hout, hpkg "main#sub" "DEBUG" (by decide) (by decide),
    (hdflt "INFO" (by decide)).2.2⟩

theorem setEntry_ne_nil (k v : String) (es : Entries) : setEntry k v es ≠ [] := by
  cases es with
  | nil => simp [setEntry]
  | cons e rest =>
    obtain ⟨k', v'⟩ := e
    by_cases h : k' = k
    · simp [setEntry, h]
    · simp [setEntry, h]

theorem GetPackageLogLevel_known (logger : Logger) (p : String)
    (h : p ∈ logger.packages.map Prod.fst) : ∃ l, logger.GetPackageLogLevel p = .ok l := by
  obtain ⟨e, he, hp⟩ := List.mem_map.1 h
  cases hf : logger.packages.find? (fun e => e.1 == p) with
  | none =>
    have := List.find?_eq_none.1 hf e he
    simp [hp] at this
  | some x =>
    exact ⟨x.2, by simp [Logger.GetPackageLogLevel, hf]⟩

theorem getActiveLogLevel_loop_ok (log : LogPackage) (logger : Logger) (names : List String)
    (acc : Entries) (hn : ∀ p ∈ names, p ∈ logger.packages.map Prod.fst) (hacc : acc ≠ []) :
    ∃ out, getActiveLogLevel.loop log logger names acc = .ok out ∧ out ≠ [] := by
  induction names generalizing acc with
  | nil => exact ⟨acc, rfl, hacc⟩
  | cons p rest ih =>
    obtain ⟨l, hl⟩ := GetPackageLogLevel_known logger p (hn p (by simp))
    simp only [getActiveLogLevel.loop, hl]
    exact ih _ (fun q hq => hn q (List.mem_cons_of_mem _ hq)) (setEntry_ne_nil _ _ _)

theorem getActiveLogLevel_ok (log : LogPackage) (logger : Logger) :
    ∃ out, getActiveLogLevel log logger = .ok (some out) ∧ out ≠ [] := by
  obtain ⟨out, hout, hne⟩ := getActiveLogLevel_loop_ok log logger
    (logger.packages.map Prod.fst) (setEntry "default" (log.IntToString logger.defaultLevel) [])
    (fun p hp => hp) (setEntry_ne_nil _ _ _)
  exact ⟨out, by simp [getActiveLogLevel, hout], hne⟩

theorem UpdateLogLevels_nil (log : LogPackage) (logger : Logger) :
    UpdateLogLevels log logger none = .error .nilMapAssignment := by
  obtain ⟨out, hout, hne⟩ := getActiveLogLevel_ok log logger
  have h := createCurrentLogLevel_nil_component (some out) hne
  simp only [UpdateLogLevels, hout, mapOrNil, h]

/-- C8: on an allocated map `loadAndApplyLogConfig` calls `UpdateLogLevels` once and stores
the new fingerprint when the fingerprint of the map differs from the stored one, and
does neither when they agree.  Hence, from a state whose fingerprint differs, two calls
in a row with two allocated maps of the same content make one call of `UpdateLogLevels`
in all, and the second leaves controller and logging engine as they were.  On the nil
map the call returns only when the stored fingerprint is that of the nil map; when it
differs, the call of `UpdateLogLevels` panics with `assignment to entry in nil map`, so
no fingerprint is stored and no second call follows. -/
theorem loadAndApplyLogConfig_change_gate (md5Sum : String → Digest) (log : LogPackage)
    (c : ComponentLogController) (logger : Logger) (es es' : Entries)
    (hperm : es.Perm es') (nd : NodupKeys es) :
    (∃ out, loadAndApplyLogConfig md5Sum log c logger (some es) = .ok out ∧
      (c.logHash ≠ GenerateLogConfigHash md5Sum (some es) →
        out.applied.length = 1 ∧
        out.controller = { c with logHash := GenerateLogConfigHash md5Sum (some es) }) ∧
      (c.logHash = GenerateLogConfigHash md5Sum (some es) →
        out.applied.length = 0 ∧ out.controller = c ∧ out.logger = logger)) ∧
    (c.logHash ≠ GenerateLogConfigHash md5Sum (some es) →
      ∃ out₁ out₂, loadAndApplyLogConfig md5Sum log c logger (some es) = .ok out₁ ∧
        loadAndApplyLogConfig md5Sum log out₁.controller out₁.logger (some es') = .ok out₂ ∧
        out₁.applied.length + out₂.applied.length = 1 ∧
        out₂.controller = out₁.controller ∧ out₂.logger = out₁.logger) ∧
    (c.logHash ≠ GenerateLogConfigHash md5Sum none →
      loadAndApplyLogConfig md5Sum log c logger none = .error .nilMapAssignment) ∧
    (c.logHash = GenerateLogConfigHash md5Sum none →
      loadAndApplyLogConfig md5Sum log c logger none = .ok ⟨c, logger, none, []⟩) := by
  obtain ⟨merged, hupd, -, -⟩ := UpdateLogLevels_alloc log logger es
  have hfirst : c.logHash ≠ GenerateLogConfigHash md5Sum (some es) →
      loadAndApplyLogConfig md5Sum log c logger (some es) =
        .ok ⟨{ c with logHash := GenerateLogConfigHash md5Sum (some es) },
          (merged.map (UpdateLogLevels.call log)).foldl Logger.apply logger, some merged,
          [merged.map (UpdateLogLevels.call log)]⟩ := by
    intro h
    simp only [loadAndApplyLogConfig, h, ne_eq, not_false_eq_true, if_true, hupd]
  refine ⟨?_, ?_, ?_, ?_⟩
  · by_cases h : c.logHash = GenerateLogConfigHash md5Sum (some es)
    · refine ⟨⟨c, logger, some es, []⟩, ?_, fun hne => absurd h hne, fun _ => ⟨rfl, rfl, rfl⟩⟩
      simp [loadAndApplyLogConfig, h]
    · exact ⟨_, hfirst h, fun _ => ⟨rfl, rfl⟩, fun he => absurd he h⟩
  · intro h
    refine ⟨_, ⟨{ c with logHash := GenerateLogConfigHash md5Sum (some es) },
      (merged.map (UpdateLogLevels.call log)).foldl Logger.apply logger, some es', []⟩,
      hfirst h, ?_, rfl, rfl, rfl⟩
    have hh : GenerateLogConfigHash md5Sum (some es') = GenerateLogConfigHash md5Sum (some es) := by
      simp only [GenerateLogConfigHash, jsonMarshal_eq_of_perm es es' hperm nd]
    simp [loadAndApplyLogConfig, hh]
  · intro h
    simp only [loadAndApplyLogConfig, h, ne_eq, not_false_eq_true, if_true,
      UpdateLogLevels_nil log logger]
  · intro h
    simp [loadAndApplyLogConfig, h]

/-- Witness of C8 from the initial all-zero fingerprint: the map (default: INFO) twice,
and the nil map that `updateLogConfig` returns when both listings fail. -/
theorem loadAndApplyLogConfig_change_gate_witness :
    (∃ out₁ out₂,
      loadAndApplyLogConfig (fun s _ => Fin.ofNat s.length) sampleLog
        ⟨"rw-core", none, none, fun _ => 0⟩ ⟨3, []⟩ (some [("default", "INFO")]) = .ok out₁ ∧
      loadAndApplyLogConfig (fun s _ => Fin.ofNat s.length) sampleLog out₁.controller out₁.logger
        (some [("default", "INFO")]) = .ok out₂ ∧
      out₁.applied.length + out₂.applied.length = 1 ∧
      out₂.controller = out₁.controller ∧ out₂.logger = out₁.logger) ∧
    loadAndApplyLogConfig (fun s _ => Fin.ofNat s.length) sampleLog
      ⟨"rw-core", none, none, fun _ => 0⟩ ⟨3, []⟩ none = .error .nilMapAssignment :=
  ⟨(loadAndApplyLogConfig_change_gate (fun s _ => Fin.ofNat s.length) sampleLog
      ⟨"rw-core", none, none, fun _ => 0⟩ ⟨3, []⟩ [("default", "INFO")] [("default", "INFO")]
      (List.Perm.refl _) (by decide)).2.1
      (fun h => absurd (congrFun h 0) (by decide)),
   (loadAndApplyLogConfig_change_gate (fun s _ => Fin.ofNat s.length) sampleLog
      ⟨"rw-core", none, none, fun _ => 0⟩ ⟨3, []⟩ [("default", "INFO")] [("default", "INFO")]
      (List.Perm.refl _) (by decide)).2.2.1
      (fun h => absurd (congrFun h 0) (by decide))⟩

/-! ## Reconciler: empty maps -/

theorem fallbackOr_empty (v : String) : fallbackOr "" v = v := by
  simp [fallbackOr]

theorem loop_append_of_disjoint (level : String) (g c : Entries) (nd : NodupKeys g)
    (hdis : ∀ k ∈ keysOf g, k ∉ keysOf c) :
    createCurrentLogLevel.loop level g (some c) =
      .ok (some (c ++ g.map (fun e => (e.1, fallbackOr level e.2)))) := by
  induction g generalizing c with
  | nil => simp [createCurrentLogLevel.loop]
  | cons e rest ih =>
    obtain ⟨a, l⟩ := e
    have ha : a ∉ keysOf c := hdis a (by simp [keysOf])
    have hany : (c.any fun e => a == e.1) = false := by
      cases hq : (c.any fun e => a == e.1) with
      | false => rfl
      | true => exact absurd ((any_key_eq_true_iff a c).1 hq) ha
    have nd' : NodupKeys rest := by
      simp only [NodupKeys, keysOf, List.map_cons, List.nodup_cons] at nd
      exact nd.2
    have hnot : a ∉ keysOf rest := by
      simp only [NodupKeys, keysOf, List.map_cons, List.nodup_cons] at nd
      exact nd.1
    have hdis' : ∀ k ∈ keysOf rest, k ∉ keysOf (c ++ [(a, fallbackOr level l)]) := by
      intro k hk hmem
      simp only [keysOf, List.map_append, List.map_cons, List.map_nil, List.mem_append,
        List.mem_singleton] at hmem
      rcases hmem with h | h
      · exact hdis k (by simp only [keysOf, List.map_cons, List.mem_cons]; exact Or.inr hk) h
      · exact hnot (h ▸ hk)
    have := ih (c ++ [(a, fallbackOr level l)]) nd' hdis'
    simp only [createCurrentLogLevel.loop, GoMap.entries, hany, GoMap.assign,
      setEntry_of_not_mem a _ c ha]
    simpa [fallbackOr] using this

theorem setEntry_nodupKeys (k v : String) (es : Entries) (nd : NodupKeys es) :
    NodupKeys (setEntry k v es) := by
  induction es with
  | nil => simp [setEntry, NodupKeys, keysOf]
  | cons e rest ih =>
    obtain ⟨k', v'⟩ := e
    simp only [NodupKeys, keysOf, List.map_cons, List.nodup_cons] at nd
    by_cases h : k' = k
    · subst h
      simpa [setEntry, NodupKeys, keysOf] using nd
    · have hkeys : ∀ x, x ∈ keysOf (setEntry k v rest) → x = k ∨ x ∈ keysOf rest := by
        intro x
        clear ih nd
        induction rest with
        | nil => simp [setEntry, keysOf]
        | cons e2 r2 ih2 =>
          obtain ⟨k2, v2⟩ := e2
          by_cases h2 : k2 = k
          · simp [setEntry, keysOf, h2]
          · simp only [setEntry, h2, if_false, keysOf, List.map_cons, List.mem_cons]
            rintro (hx | hx)
            · exact Or.inr (Or.inl hx)
            · rcases ih2 hx with h3 | h3
              · exact Or.inl h3
              · exact Or.inr (Or.inr h3)
      simp only [setEntry, h, if_false, NodupKeys, keysOf, List.map_cons, List.nodup_cons]
      refine ⟨?_, ih nd.2⟩
      intro hmem
      rcases hkeys k' hmem with h3 | h3
      · exact h h3
      · exact nd.1 h3

theorem populateListData_loop_nodup (configType : String) (data : List KVPair) (acc out : Entries)
    (nd : NodupKeys acc) (h : populateListData.loop configType data acc = .ok out) :
    NodupKeys out := by
  induction data generalizing acc with
  | nil =>
    simp only [populateListData.loop, Except.ok.injEq] at h
    exact h ▸ nd
  | cons kv rest ih =>
    simp only [populateListData.loop, bind, Except.bind] at h
    split at h
    · exact absurd h (by simp)
    · split at h
      · exact absurd h (by simp)
      · exact ih _ (setEntry_nodupKeys _ _ _ nd) h

theorem populateListData_nodup (configType : String) (data : List KVPair) (out : Entries)
    (h : populateListData data configType = .ok (some out)) : NodupKeys out := by
  unfold populateListData at h
  split at h
  · exact absurd h (by simp)
  · rename_i loglevel hl
    simp only [Except.ok.injEq, Option.some.injEq] at h
    subst h
    exact populateListData_loop_nodup configType data [] _ (by simp [NodupKeys, keysOf]) hl

/-- C11: with an empty global map (nil or allocated) the call returns the component map
as it is.  With an empty allocated component map it returns a map with exactly the pairs
of the global map, each with its global value: the same value under every key, one entry
per key, and the very entry list of the global map when that holds no key twice.  This is
the case `updateLogConfig` meets when the component listing succeeds with nothing
listed: it returns the global levels. -/
theorem createCurrentLogLevel_empty_maps :
    (∀ C : GoMap, createCurrentLogLevel none C = .ok ⟨none, C, C⟩ ∧
      createCurrentLogLevel (some []) C = .ok ⟨some [], C, C⟩) ∧
    (∀ G : GoMap, ∃ r, createCurrentLogLevel G (some []) = .ok r ∧
      (∀ k, r.returned.get? k = G.get? k) ∧
      NodupKeys r.returned.entries ∧
      (NodupKeys G.entries → r.returned = some G.entries)) ∧
    (∀ (c : ComponentLogController) (globalCfg componentCfg : ComponentConfig)
        (globalData : List KVPair) (g : Entries),
      c.globalConfig = some globalCfg → c.componentNameConfig = some componentCfg →
      populateListData globalData globalCfg.configType.String = .ok (some g) →
      updateLogConfig c (.ok globalData) (.ok []) = .ok (some g)) := by
  refine ⟨fun C => ⟨rfl, rfl⟩, ?_, ?_⟩
  · intro G
    obtain ⟨c', hc', hlook⟩ := loop_alloc (getDefaultLogLevel (some [])) G.entries []
    have hnd := (loop_prefix_nodup _ _ _ _ hc').2 (by simp [NodupKeys, keysOf])
    refine ⟨⟨G, some c', some c'⟩, createCurrentLogLevel_of_loop G [] c' hc', ?_, hnd, ?_⟩
    · intro k
      show lookupKey k c' = lookupKey k G.entries
      rw [hlook k]
      have hd : getDefaultLogLevel (some []) = "" := rfl
      rw [hd]
      cases lookupKey k G.entries <;> simp [lookupKey, fallbackOr_empty]
    · intro ndG
      have := loop_append_of_disjoint (getDefaultLogLevel (some [])) G.entries [] ndG
        (by simp [keysOf])
      rw [hc'] at this
      have hd : getDefaultLogLevel (some []) = "" := rfl
      simp only [hd, fallbackOr_empty, List.nil_append, Except.ok.injEq, Option.some.injEq] at this
      simp only [this]
      simp
  · intro c globalCfg componentCfg globalData g hg hc hpop
    have hnd : NodupKeys g := populateListData_nodup _ _ _ hpop
    have hloop := loop_append_of_disjoint (getDefaultLogLevel (some [])) g [] hnd
      (by simp [keysOf])
    have hd : getDefaultLogLevel (some []) = "" := rfl
    have hmap : List.map (fun e : String × String => (e.1, fallbackOr "" e.2)) g = g := by
      simp [fallbackOr_empty]
    rw [hd, hmap, List.nil_append] at hloop
    have hm : createCurrentLogLevel (some g) (some []) = .ok ⟨some g, some g, some g⟩ :=
      createCurrentLogLevel_of_loop (some g) [] g hloop
    have hcomp : populateListData [] componentCfg.configType.String = .ok (some []) := rfl
    simp only [updateLogConfig, getGlobalLogConfig, getComponentLogConfig, configTypeString, hg, hc,
      hpop, hcomp, bind, Except.bind, pure, Except.pure, mapOrNil, hm]

/-- Witness of C11: a component subtree with nothing listed. -/
theorem createCurrentLogLevel_empty_maps_witness :
    updateLogConfig
      ⟨"rw-core", some ⟨⟨"service/voltha/config/"⟩, "rw-core", .ConfigTypeLogLevel⟩,
        some ⟨⟨"service/voltha/config/"⟩, "global", .ConfigTypeLogLevel⟩, fun _ => 0⟩
      (.ok [⟨"service/voltha/config/global/loglevel/default", "\"WARN\""⟩,
            ⟨"service/voltha/config/global/loglevel/pkgA", "\"DEBUG\""⟩])
      (.ok []) = .ok (some [("default", "WARN"), ("pkgA", "DEBUG")]) :=
  createCurrentLogLevel_empty_maps.2.2 _ _ _ _ _ rfl rfl rfl

/-! ## Key codec: sufficient conditions, partly filled events, the subtree root -/

theorem indexOf_eq_some (sep : List Char) (n : Nat) (s : List Char) (hn : n ≤ s.length)
    (hat : sep <+: s.drop n) (hfirst : ∀ i, i < n → ¬ sep <+: s.drop i) :
    indexOf sep s = some n := by
  induction n generalizing s with
  | zero => exact indexOf_at_start sep s (by simpa using hat)
  | succ n ih =>
    cases s with
    | nil => simp at hn
    | cons c t =>
      have h0 : ¬ sep <+: c :: t := by simpa using hfirst 0 (Nat.succ_pos n)
      have hp : sep.isPrefixOf (c :: t) = false := by
        cases h : sep.isPrefixOf (c :: t) with
        | false => rfl
        | true => exact absurd (List.isPrefixOf_iff_prefix.1 h) h0
      have hrec := ih t (by simpa using hn) (by simpa using hat)
        (fun i hi => by simpa using hfirst (i + 1) (Nat.succ_lt_succ hi))
      rw [indexOf, hp, hrec]
      rfl

theorem exists_prefix_drop_of_infix (l₁ l₂ : List Char) (h : l₁ <:+: l₂) :
    ∃ j, l₁ <+: l₂.drop j := by
  obtain ⟨s, t, hst⟩ := h
  refine ⟨s.length, t, ?_⟩
  rw [← hst, List.append_assoc, List.drop_left]

/-- The three splits of the loop body on a key `prefix ++ label ++ "/" ++ type ++ "/" ++ leaf`,
given where the separators occur. -/
theorem body_of_splits (c : ComponentConfig) (leaf : String) (t : Int) (v : String)
    (hPd : c.cManager.KvStoreConfigPrefix.data ≠ [])
    (hocc : ¬ c.cManager.KvStoreConfigPrefix.data <:+:
      (c.componentLabel ++ "/" ++ c.configType.String ++ "/" ++ leaf).data)
    (hidx : indexOf ("/" ++ c.configType.String).data
      (c.componentLabel ++ "/" ++ c.configType.String ++ "/" ++ leaf).data =
        some c.componentLabel.data.length)
    (hinf : ¬ ("/" ++ c.configType.String).data <:+: ("/" ++ leaf).data)
    (hleaf : '/' ∉ leaf.data) :
    processKVStoreWatchEvents.body c ⟨t, makeConfigPath c ++ "/" ++ leaf, v⟩ =
      .ok ⟨t, c.componentLabel, leaf, v⟩ := by
  obtain ⟨⟨P⟩, label, ty⟩ := c
  simp only at hPd hocc hidx hinf
  have h1 : SplitAfter (makeConfigPath ⟨⟨P⟩, label, ty⟩ ++ "/" ++ leaf) P =
      [P, label ++ "/" ++ ty.String ++ "/" ++ leaf] := by
    have := genSplit_two (makeConfigPath ⟨⟨P⟩, label, ty⟩ ++ "/" ++ leaf) P ""
      (label ++ "/" ++ ty.String ++ "/" ++ leaf) P.length (le_refl _)
      (by simp [makeConfigPath, String.data_append]) hPd
      (indexOf_at_start _ _ ⟨(label ++ "/" ++ ty.String ++ "/" ++ leaf).data, by
        simp [makeConfigPath, String.data_append]⟩) hocc
    rw [SplitAfter, this]
    have ht : List.take P.length P.data = P.data := List.take_length _
    simp only [ht]
    rfl
  have hsep : ("/" ++ ty.String).data = '/' :: ty.String.data := by
    simp [String.data_append]
  have h2 : Split (label ++ "/" ++ ty.String ++ "/" ++ leaf) ("/" ++ ty.String) =
      [label, "/" ++ leaf] := by
    have := genSplit_two (label ++ "/" ++ ty.String ++ "/" ++ leaf) ("/" ++ ty.String) label
      ("/" ++ leaf) 0 (Nat.zero_le _) (by simp [String.data_append]) (by simp [hsep])
      hidx hinf
    rw [Split, this]
    simp only [List.take_zero, List.append_nil]
  have h3 : SplitAfter ("/" ++ leaf) "/" = ["/", leaf] := by
    have := genSplit_two ("/" ++ leaf) "/" "" leaf 1 (by decide)
      (by simp [String.data_append]) (by decide)
      (indexOf_at_start _ _ ⟨leaf.data, by simp [String.data_append]⟩)
      (by
        intro hin
        exact hleaf (hin.subset (by simp)))
    show genSplit ("/" ++ leaf) "/" 1 = _
    rw [this]
    rfl
  simp only [processKVStoreWatchEvents.body, h1, index, List.get?, h2, h3, bind, Except.bind, pure,
    Except.pure]

/-- C19: when the prefix is non-empty and occurs in the raw key only at its start, the
text `/` + configType occurs in `label/configType/leaf` only right after the label, and
the leaf is non-empty and holds no `/`, the splits of the loop body index in range and
give `Key = label` and `PackageName = leaf`. -/
theorem processKVStoreWatchEvents_parse_sufficient (c : ComponentConfig) (leaf : String)
    (t : Int) (v : String)
    (hP : c.cManager.KvStoreConfigPrefix ≠ "")
    (hPonly : ∀ i, occursAt c.cManager.KvStoreConfigPrefix
      (c.cManager.KvStoreConfigPrefix ++ c.componentLabel ++ "/" ++ c.configType.String ++ "/" ++
        leaf) i → i = 0)
    (hsep : ∀ i, occursAt ("/" ++ c.configType.String)
      (c.componentLabel ++ "/" ++ c.configType.String ++ "/" ++ leaf) i →
        i = c.componentLabel.length)
    (_hne : leaf ≠ "") (hleaf : '/' ∉ leaf.data) :
    processKVStoreWatchEvents.body c
      ⟨t, c.cManager.KvStoreConfigPrefix ++ c.componentLabel ++ "/" ++ c.configType.String ++ "/" ++
        leaf, v⟩ = .ok ⟨t, c.componentLabel, leaf, v⟩ := by
  have hPd : c.cManager.KvStoreConfigPrefix.data ≠ [] := fun h => hP (String.ext h)
  have hsepd : ("/" ++ c.configType.String).data = '/' :: c.configType.String.data := by
    simp [String.data_append]
  have hrest : (c.componentLabel ++ "/" ++ c.configType.String ++ "/" ++ leaf).data =
      c.componentLabel.data ++ ("/" ++ c.configType.String).data ++ ("/" ++ leaf).data := by
    simp [String.data_append]
  have hocc : ¬ c.cManager.KvStoreConfigPrefix.data <:+:
      (c.componentLabel ++ "/" ++ c.configType.String ++ "/" ++ leaf).data := by
    intro hin
    obtain ⟨j, hj⟩ := exists_prefix_drop_of_infix _ _ hin
    have h0 := hPonly (c.cManager.KvStoreConfigPrefix.data.length + j) (by
      unfold occursAt
      have : (c.cManager.KvStoreConfigPrefix ++ c.componentLabel ++ "/" ++
          c.configType.String ++ "/" ++ leaf).data =
          c.cManager.KvStoreConfigPrefix.data ++
            (c.componentLabel ++ "/" ++ c.configType.String ++ "/" ++ leaf).data := by
        simp [String.data_append]
      rw [this, List.drop_append]
      exact hj)
    have hlen : c.cManager.KvStoreConfigPrefix.data.length = 0 := by omega
    exact hPd (List.length_eq_zero.1 hlen)
  have hidx : indexOf ("/" ++ c.configType.String).data
      (c.componentLabel ++ "/" ++ c.configType.String ++ "/" ++ leaf).data =
        some c.componentLabel.data.length := by
    apply indexOf_eq_some
    · rw [hrest]
      simp
    · rw [hrest, List.append_assoc, List.drop_left]
      exact List.prefix_append _ _
    · intro i hi hpre
      have := hsep i hpre
      have hl : c.componentLabel.length = c.componentLabel.data.length := rfl
      omega
  have hinf : ¬ ("/" ++ c.configType.String).data <:+: ("/" ++ leaf).data := by
    intro hin
    obtain ⟨j, hj⟩ := exists_prefix_drop_of_infix _ _ hin
    have := hsep (c.componentLabel.data.length + ("/" ++ c.configType.String).data.length + j) (by
      unfold occursAt
      rw [hrest, ← List.length_append, List.drop_append]
      exact hj)
    have hl : c.componentLabel.length = c.componentLabel.data.length := rfl
    have hpos : 0 < ("/" ++ c.configType.String).data.length := by
      rw [hsepd]
      simp
    omega
  exact body_of_splits c leaf t v hPd hocc hidx hinf hleaf

theorem occursAt_lt_length (sep s : String) (i : Nat) (hsep : sep.data ≠ [])
    (h : occursAt sep s i) : i < s.data.length := by
  by_contra hge
  have hd : s.data.drop i = [] := List.drop_eq_nil_of_le (by omega)
  unfold occursAt at h
  rw [hd] at h
  exact hsep (List.prefix_nil.1 h)

/-- Witness of C19 on the key `cfg/core/loglevel/pkgA`. -/
theorem processKVStoreWatchEvents_parse_sufficient_witness :
    processKVStoreWatchEvents.body ⟨⟨"cfg/"⟩, "core", .ConfigTypeLogLevel⟩
      ⟨0, "cfg/" ++ "core" ++ "/" ++ "loglevel" ++ "/" ++ "pkgA", "\"DEBUG\""⟩ =
      .ok ⟨0, "core", "pkgA", "\"DEBUG\""⟩ :=
  processKVStoreWatchEvents_parse_sufficient ⟨⟨"cfg/"⟩, "core", .ConfigTypeLogLevel⟩ "pkgA" 0
    "\"DEBUG\"" (by decide)
    (fun i h => (by decide : ∀ i < 22, occursAt "cfg/"
        ("cfg/" ++ "core" ++ "/" ++ "loglevel" ++ "/" ++ "pkgA") i → i = 0) i
      (occursAt_lt_length _ _ i (by decide) h) h)
    (fun i h => (by decide : ∀ i < 18, occursAt ("/" ++ "loglevel")
        ("core" ++ "/" ++ "loglevel" ++ "/" ++ "pkgA") i → i = 4) i
      (occursAt_lt_length _ _ i (by decide) h) h)
    (by decide) (by decide)

/-- C13, as the code behaves: the event is built from the split results with no check for
emptiness.  On a key built from a label and a leaf without `/` (prefix non-empty and not
recurring, leaf not starting with the type name) the one event emitted has `Key = label`
and `PackageName = leaf` also when the label or the leaf is empty, so an empty label or
leaf gives an event with an empty field. -/
theorem processKVStoreWatchEvents_emits_empty_fields (c : ComponentConfig) (leaf : String)
    (t : Int) (v : String)
    (hP : c.cManager.KvStoreConfigPrefix ≠ "")
    (hocc : ¬ c.cManager.KvStoreConfigPrefix.data <:+:
      (c.componentLabel ++ "/" ++ c.configType.String ++ "/" ++ leaf).data)
    (hlabel : '/' ∉ c.componentLabel.data)
    (hleaf : '/' ∉ leaf.data)
    (hty : ¬ c.configType.String.data <+: leaf.data)
    (hempty : c.componentLabel = "" ∨ leaf = "") :
    ∃ ev, processKVStoreWatchEvents c [⟨t, makeConfigPath c ++ "/" ++ leaf, v⟩] = ⟨[ev], none⟩ ∧
      ev.Key = c.componentLabel ∧ ev.PackageName = leaf ∧
      (ev.Key = "" ∨ ev.PackageName = "") := by
  have hPd : c.cManager.KvStoreConfigPrefix.data ≠ [] := fun h => hP (String.ext h)
  have hidx : indexOf ("/" ++ c.configType.String).data
      (c.componentLabel ++ "/" ++ c.configType.String ++ "/" ++ leaf).data =
        some c.componentLabel.data.length := by
    have := indexOf_after_clean '/' c.configType.String.data c.componentLabel.data
      ("/" ++ leaf).data hlabel
    simpa [String.data_append] using this
  have hinf : ¬ ("/" ++ c.configType.String).data <:+: ("/" ++ leaf).data := by
    have hs : ("/" ++ c.configType.String).data = '/' :: c.configType.String.data := by
      simp [String.data_append]
    have hl : ("/" ++ leaf).data = '/' :: leaf.data := by simp [String.data_append]
    rw [hs, hl, List.infix_cons_iff]
    rintro (hpre | hin)
    · exact hty ((List.prefix_cons_inj _).1 hpre)
    · exact hleaf (hin.subset (by simp))
  have hb := body_of_splits c leaf t v hPd hocc hidx hinf hleaf
  refine ⟨⟨t, c.componentLabel, leaf, v⟩, ?_, rfl, rfl, hempty⟩
  simp [processKVStoreWatchEvents, hb]

/-- Witness of C13 (amended): a key that ends right after the type segment. -/
theorem processKVStoreWatchEvents_emits_empty_fields_witness :
    ∃ ev, processKVStoreWatchEvents ⟨⟨"service/voltha/config/"⟩, "rw-core", .ConfigTypeLogLevel⟩
        [⟨0, makeConfigPath ⟨⟨"service/voltha/config/"⟩, "rw-core", .ConfigTypeLogLevel⟩ ++ "/" ++ "",
          "v"⟩] = ⟨[ev], none⟩ ∧
      ev.Key = "rw-core" ∧ ev.PackageName = "" ∧ (ev.Key = "" ∨ ev.PackageName = "") :=
  processKVStoreWatchEvents_emits_empty_fields
    ⟨⟨"service/voltha/config/"⟩, "rw-core", .ConfigTypeLogLevel⟩ "" 0 "v"
    (by decide) (by decide) (by decide) (by decide) (by decide) (Or.inr rfl)

/-- C13 fails as stated: a key with an empty leaf yields an event with an empty
`PackageName`, and a key with an empty label yields an event with an empty `Key`. -/
theorem processKVStoreWatchEvents_partial_events :
    processKVStoreWatchEvents ⟨⟨"service/voltha/config/"⟩, "rw-core", .ConfigTypeLogLevel⟩
      [⟨0, "service/voltha/config/rw-core/loglevel/", "v"⟩] =
        ⟨[⟨0, "rw-core", "", "v"⟩], none⟩ ∧
    processKVStoreWatchEvents ⟨⟨"service/voltha/config/"⟩, "", .ConfigTypeLogLevel⟩
      [⟨0, "service/voltha/config//loglevel/pkgA", "v"⟩] =
        ⟨[⟨0, "", "pkgA", "v"⟩], none⟩ :=
  ⟨by rfl, by rfl⟩

theorem loop_head_prefix (sep : List Char) (k n : Nat) (s : List Char) :
    ∃ h t, genSplit.loop sep k n s = h :: t ∧ h <+: s := by
  cases n with
  | zero => exact ⟨s, [], rfl, List.prefix_refl s⟩
  | succ n =>
    cases hi : indexOf sep s with
    | none => exact ⟨s, [], by simp [genSplit.loop, hi], List.prefix_refl s⟩
    | some m =>
      exact ⟨s.take (m + k), genSplit.loop sep k n (s.drop (m + sep.length)),
        by simp only [genSplit.loop, hi], List.take_prefix _ s⟩

theorem not_infix_short (ty label h2 : List Char) (hlabel : '/' ∉ label)
    (hlen : h2.length < ty.length + 1) : ¬ ('/' :: ty) <:+: label ++ h2 := by
  induction label with
  | nil =>
    intro hin
    have := hin.length_le
    simp only [List.nil_append, List.length_cons] at this
    omega
  | cons x l ih =>
    have hx : x ≠ '/' := fun e => hlabel (by simp [e])
    have hl : '/' ∉ l := fun h => hlabel (by simp [h])
    rw [List.cons_append, List.infix_cons_iff]
    rintro (hpre | hin)
    · obtain ⟨u, hu⟩ := hpre
      simp only [List.cons_append, List.cons.injEq] at hu
      exact hx hu.1.symm
    · exact ih hl hin

theorem configType_data_ne_nil (ty : ConfigType) : ty.String.data ≠ [] := by
  cases ty <;> decide

theorem body_panics_of_no_type_segment (c : ComponentConfig) (ev : Event) (ky1 : String)
    (hky : index (SplitAfter ev.Key c.cManager.KvStoreConfigPrefix) 1 = .ok ky1)
    (hno : ¬ ("/" ++ c.configType.String).data <:+: ky1.data) :
    processKVStoreWatchEvents.body c ev = .error (.indexOutOfRange 1 1) := by
  have hsep : ("/" ++ c.configType.String).data ≠ [] := by simp [String.data_append]
  have h2 : Split ky1 ("/" ++ c.configType.String) = [ky1] := genSplit_one _ _ _ hsep hno
  simp only [processKVStoreWatchEvents.body, hky, h2, index_one_singleton, bind, Except.bind]

theorem body_panics_of_root_rest (c : ComponentConfig) (ev : Event) (ky1 : String)
    (hlabel : '/' ∉ c.componentLabel.data)
    (hky : index (SplitAfter ev.Key c.cManager.KvStoreConfigPrefix) 1 = .ok ky1)
    (hpre : ky1.data <+: c.componentLabel.data ++ '/' :: c.configType.String.data) :
    processKVStoreWatchEvents.body c ev = .error (.indexOutOfRange 1 1) := by
  obtain ⟨⟨P⟩, label, ty⟩ := c
  simp only at hlabel hky hpre
  have hsep : ("/" ++ ty.String).data = '/' :: ty.String.data := by
    simp [String.data_append]
  have hsepne : ("/" ++ ty.String).data ≠ [] := by simp [hsep]
  by_cases hfull : ky1.data = label.data ++ '/' :: ty.String.data
  · have h2 : Split ky1 ("/" ++ ty.String) = [label, ""] := by
      have := genSplit_two ky1 ("/" ++ ty.String) label "" 0 (Nat.zero_le _)
        (by simp [hfull, hsep]) hsepne
        (by
          rw [hfull, hsep]
          have := indexOf_after_clean '/' ty.String.data label.data [] hlabel
          simpa using this)
        (by
          intro hin
          exact hsepne (List.infix_nil.1 hin))
      rw [Split, this]
      simp only [List.take_zero, List.append_nil]
    have h3 : SplitAfter "" "/" = [""] :=
      genSplit_one "" "/" _ (by decide) (by decide)
    have i1 : index [label, ""] 1 = .ok "" := rfl
    have i0 : index [label, ""] 0 = .ok label := rfl
    simp only [processKVStoreWatchEvents.body, hky, h2, i1, i0, h3, index_one_singleton, bind,
      Except.bind]
  · have hno : ¬ ("/" ++ ty.String).data <:+: ky1.data := by
      rw [hsep]
      rcases List.prefix_or_prefix_of_prefix hpre (List.prefix_append label.data _) with hhl | hlh
      · have hh : '/' ∉ ky1.data := fun hm => hlabel (hhl.subset hm)
        have := not_infix_short ty.String.data ky1.data [] hh (by simp)
        simpa using this
      · obtain ⟨h2, hh2⟩ := hlh
        rw [← hh2] at hpre hfull ⊢
        have hp2 : h2 <+: '/' :: ty.String.data := (List.prefix_append_right_inj _).1 hpre
        have hne2 : h2 ≠ '/' :: ty.String.data := fun e => hfull (by rw [e])
        have hlen : h2.length < ty.String.data.length + 1 := by
          have hle := hp2.length_le
          simp only [List.length_cons] at hle
          rcases Nat.lt_or_ge h2.length (ty.String.data.length + 1) with hlt | hge
          · exact hlt
          · exact absurd (hp2.eq_of_length (by simp only [List.length_cons]; omega)) hne2
        exact not_infix_short ty.String.data label.data h2 hlabel hlen
    exact body_panics_of_no_type_segment ⟨⟨P⟩, label, ty⟩ ev ky1 hky hno

/-- C12, as the code behaves: for every prefix, every label without `/` and every config
type, the parse of the subtree-root key `makeConfigPath()` yields no event: one of the
indexings `ky[1]`, `configKey[1]`, `pname[1]` is out of range. -/
theorem processKVStoreWatchEvents_root_key_panics (c : ComponentConfig) (t : Int) (v : String)
    (hlabel : '/' ∉ c.componentLabel.data) :
    processKVStoreWatchEvents.body c ⟨t, makeConfigPath c, v⟩ = .error (.indexOutOfRange 1 1) := by
  have hkey : (makeConfigPath c).data = c.cManager.KvStoreConfigPrefix.data ++
      (c.componentLabel.data ++ '/' :: c.configType.String.data) := by
    simp [makeConfigPath, String.data_append]
  have htyne := configType_data_ne_nil c.configType
  by_cases hP : c.cManager.KvStoreConfigPrefix.data = []
  · -- the empty separator cuts the key into its characters
    rw [hP, List.nil_append] at hkey
    obtain ⟨a, b, rest, hab⟩ : ∃ a b rest, c.componentLabel.data ++ '/' ::
        c.configType.String.data = a :: b :: rest := by
      cases hl : c.componentLabel.data with
      | nil =>
        cases hty : c.configType.String.data with
        | nil => exact absurd hty htyne
        | cons x xs => exact ⟨_, _, _, rfl⟩
      | cons x xs =>
        cases xs with
        | nil => exact ⟨_, _, _, rfl⟩
        | cons y ys => exact ⟨_, _, _, rfl⟩
    have hky : index (SplitAfter (makeConfigPath c) c.cManager.KvStoreConfigPrefix) 1 =
        .ok (String.singleton b) := by
      simp only [SplitAfter, genSplit, hP, if_true, explode, hkey, hab]
      rfl
    apply body_panics_of_no_type_segment c ⟨t, makeConfigPath c, v⟩ (String.singleton b) hky
    intro hin
    have hs : ("/" ++ c.configType.String).data = '/' :: c.configType.String.data := by
      simp [String.data_append]
    have hb : (String.singleton b).data = [b] := rfl
    rw [hs, hb] at hin
    have := hin.length_le
    have hlen : 0 < c.configType.String.data.length := List.length_pos.2 htyne
    simp only [List.length_cons, List.length_nil] at this
    omega
  · have hidx : indexOf c.cManager.KvStoreConfigPrefix.data (makeConfigPath c).data = some 0 :=
      indexOf_at_start _ _ ⟨_, hkey.symm⟩
    have hne : (makeConfigPath c).data ≠ [] := by
      rw [hkey]
      intro h
      exact hP (List.append_eq_nil.1 h).1
    obtain ⟨n, hn⟩ : ∃ n, (makeConfigPath c).data.length = n + 1 :=
      Nat.exists_eq_succ_of_ne_zero (fun h => hne (List.length_eq_zero.1 h))
    have hcount : Count (makeConfigPath c) c.cManager.KvStoreConfigPrefix =
        countLoop c.cManager.KvStoreConfigPrefix.data n
          (c.componentLabel.data ++ '/' :: c.configType.String.data) + 1 := by
      simp only [Count, hP, if_false, String.length, hn, countLoop, hidx, Nat.zero_add]
      rw [hkey, List.drop_left]
    obtain ⟨h, tl, hloop, hpre⟩ := loop_head_prefix c.cManager.KvStoreConfigPrefix.data
      c.cManager.KvStoreConfigPrefix.length
      (countLoop c.cManager.KvStoreConfigPrefix.data n
        (c.componentLabel.data ++ '/' :: c.configType.String.data))
      (c.componentLabel.data ++ '/' :: c.configType.String.data)
    have hky : index (SplitAfter (makeConfigPath c) c.cManager.KvStoreConfigPrefix) 1 =
        .ok ⟨h⟩ := by
      simp only [SplitAfter, genSplit, hP, if_false, hcount, genSplit.loop, hidx, Nat.zero_add]
      rw [hkey, List.drop_left, hloop]
      rfl
    exact body_panics_of_root_rest c ⟨t, makeConfigPath c, v⟩ ⟨h⟩ hlabel hky hpre

/-- Witness of C12 (amended). -/
theorem processKVStoreWatchEvents_root_key_panics_witness :
    processKVStoreWatchEvents.body ⟨⟨"service/voltha/config/"⟩, "rw-core", .ConfigTypeLogLevel⟩
      ⟨0, makeConfigPath ⟨⟨"service/voltha/config/"⟩, "rw-core", .ConfigTypeLogLevel⟩, "v"⟩ =
      .error (.indexOutOfRange 1 1) :=
  processKVStoreWatchEvents_root_key_panics
    ⟨⟨"service/voltha/config/"⟩, "rw-core", .ConfigTypeLogLevel⟩ 0 "v" (by decide)

/-- C12 fails as stated: the parse of the subtree-root key returns no pair of empty leaf and
label; it panics, and a run over that one notification emits nothing. -/
theorem processKVStoreWatchEvents_root_key_no_event :
    processKVStoreWatchEvents.body ⟨⟨"service/voltha/config/"⟩, "rw-core", .ConfigTypeLogLevel⟩
      ⟨0, "service/voltha/config/rw-core/loglevel", "v"⟩ = .error (.indexOutOfRange 1 1) ∧
    processKVStoreWatchEvents ⟨⟨"service/voltha/config/"⟩, "global", .ConfigTypeKafka⟩
      [⟨0, makeConfigPath ⟨⟨"service/voltha/config/"⟩, "global", .ConfigTypeKafka⟩, "v"⟩] =
        ⟨[], some (.indexOutOfRange 1 1)⟩ :=
  ⟨by rfl, by rfl⟩

/-! ## Value decoding and listing -/

theorem loop_step (sep a b : List Char) (k n : Nat) (hk : k ≤ sep.length)
    (hidx : indexOf sep (a ++ sep ++ b) = some a.length) :
    genSplit.loop sep k (n + 1) (a ++ sep ++ b) = (a ++ sep.take k) :: genSplit.loop sep k n b := by
  have htake : List.take (a.length + k) (a ++ sep ++ b) = a ++ sep.take k := by
    rw [List.append_assoc, List.take_append, List.take_append_of_le_length hk]
  have hdrop : List.drop (a.length + sep.length) (a ++ sep ++ b) = b := by
    rw [← List.length_append, List.drop_left]
  rw [genSplit.loop, hidx]
  simp only [htake, hdrop]

theorem countLoop_step (sep a b : List Char) (fuel : Nat)
    (hidx : indexOf sep (a ++ sep ++ b) = some a.length) :
    countLoop sep (fuel + 1) (a ++ sep ++ b) = countLoop sep fuel b + 1 := by
  have hdrop : List.drop (a.length + sep.length) (a ++ sep ++ b) = b := by
    rw [← List.length_append, List.drop_left]
  simp only [countLoop, hidx, hdrop]

theorem countLoop_nil (sep : List Char) (fuel : Nat) (hsep : sep ≠ []) :
    countLoop sep fuel [] = 0 := by
  cases fuel with
  | zero => rfl
  | succ n =>
    have : indexOf sep [] = none := (indexOf_eq_none_iff sep []).2 (fun h => hsep (List.infix_nil.1 h))
    simp [countLoop, this]

theorem genSplit_head (s sep : String) (k : Nat) (hsep : sep.data ≠ []) :
    ∃ h t, genSplit s sep k = ⟨h⟩ :: t ∧ h <+: s.data ∧
      (1 ≤ k → s.data ≠ [] → h ≠ []) := by
  simp only [genSplit, hsep, if_false]
  cases hc : Count s sep with
  | zero => exact ⟨s.data, [], rfl, List.prefix_refl _, fun _ h => h⟩
  | succ n =>
    cases hi : indexOf sep.data s.data with
    | none => exact ⟨s.data, [], by simp [genSplit.loop, hi], List.prefix_refl _, fun _ h => h⟩
    | some m =>
      refine ⟨s.data.take (m + k), (genSplit.loop sep.data k n
        (s.data.drop (m + sep.data.length))).map String.mk, by simp [genSplit.loop, hi],
        List.take_prefix _ _, ?_⟩
      intro hk hne
      cases hs : s.data with
      | nil => exact absurd hs hne
      | cons c t =>
        obtain ⟨j, hj⟩ : ∃ j, m + k = j + 1 := ⟨m + k - 1, by omega⟩
        rw [hj]
        simp

theorem genSplit_two_pieces (s sep : String) (k : Nat) (hsep : sep.data ≠ [])
    (hin : sep.data <:+: s.data) : ∃ x y t, genSplit s sep k = x :: y :: t := by
  have hne : s.data ≠ [] := by
    intro h
    rw [h] at hin
    exact hsep (List.infix_nil.1 hin)
  cases hi : indexOf sep.data s.data with
  | none => exact absurd hin ((indexOf_eq_none_iff _ _).1 hi)
  | some m =>
    obtain ⟨n, hn⟩ := countLoop_pos sep.data s.data m hi hne
    have hcount : Count s sep = n + 1 := by
      simp only [Count, hsep, if_false]
      exact hn
    obtain ⟨h2, t2, hl, -⟩ := loop_head_prefix sep.data k n (s.data.drop (m + sep.data.length))
    exact ⟨⟨s.data.take (m + k)⟩, ⟨h2⟩, t2.map String.mk, by
      simp only [genSplit, hsep, if_false, hcount, genSplit.loop, hi, hl, List.map_cons]⟩

theorem quote_infix_iff (l : List Char) (ch : Char) : [ch] <:+: l ↔ ch ∈ l := by
  constructor
  · intro h
    exact h.subset (by simp)
  · intro h
    obtain ⟨s, t, hst⟩ := List.append_of_mem h
    exact ⟨s, t, by simp [hst]⟩

/-- What `getLogLevel` does, in terms of the text up to the first backslash. -/
theorem getLogLevel_cases (val : String) :
    ∃ seg : String, index (SplitAfter val "\\") 0 = .ok seg ∧ seg.data <+: val.data ∧
      (val.data ≠ [] → seg.data ≠ []) ∧
      ('"' ∈ seg.data → ∃ lvl, getLogLevel val = .ok lvl) ∧
      ('"' ∉ seg.data → getLogLevel val = .error (.indexOutOfRange 1 1)) := by
  obtain ⟨h, t, hsplit, hpre, hne⟩ := genSplit_head val "\\" 1 (by decide)
  have hs : SplitAfter val "\\" = ⟨h⟩ :: t := hsplit
  have hi0 : index (SplitAfter val "\\") 0 = .ok ⟨h⟩ := by rw [hs]; rfl
  refine ⟨⟨h⟩, hi0, hpre, hne (le_refl 1), ?_, ?_⟩
  · intro hq
    obtain ⟨x, y, t2, h2⟩ := genSplit_two_pieces ⟨h⟩ "\"" 0 (by decide)
      ((quote_infix_iff h '"').2 hq)
    have h2' : Split ⟨h⟩ "\"" = x :: y :: t2 := h2
    refine ⟨y, ?_⟩
    simp only [getLogLevel, hi0, h2', bind, Except.bind]
    rfl
  · intro hq
    have h2 : Split ⟨h⟩ "\"" = [⟨h⟩] :=
      genSplit_one _ _ _ (by decide) (fun hin => hq ((quote_infix_iff h '"').1 hin))
    simp only [getLogLevel, hi0, h2, bind, Except.bind, index_one_singleton]

theorem escapeChars_plain (l : List Char) (h : ∀ ch ∈ l, escapeChar ch = [ch]) :
    escapeChars l = l := by
  induction l with
  | nil => rfl
  | cons c t ih =>
    simp only [escapeChars, h c (by simp), List.singleton_append]
    rw [ih (fun ch hch => h ch (by simp [hch]))]

/-- C14, as the code behaves: for a level string made only of characters that JSON writes
unescaped, `getLogLevel` applied to the payload `Save` stores (the string in double
quotes) returns the string itself. -/
theorem getLogLevel_decodes_plain (s : String) (hplain : ∀ ch ∈ s.data, escapeChar ch = [ch]) :
    getLogLevel ⟨encodeString s⟩ = .ok s := by
  have hq : '"' ∉ s.data := fun h => absurd (hplain _ h) (by decide)
  have hb : '\\' ∉ s.data := fun h => absurd (hplain _ h) (by decide)
  have hdata : encodeString s = '"' :: (s.data ++ ['"']) := by
    simp only [encodeString, escapeChars_plain _ hplain]
  have h1 : SplitAfter ⟨encodeString s⟩ "\\" = [⟨encodeString s⟩] := by
    apply genSplit_one _ _ _ (by decide)
    intro hin
    have hm := (quote_infix_iff _ '\\').1 hin
    simp only [hdata, List.mem_cons, List.mem_append, List.mem_singleton] at hm
    rcases hm with h | h | h
    · exact absurd h (by decide)
    · exact hb h
    · exact absurd h (by decide)
  have hi1 : indexOf ['"'] ([] ++ ['"'] ++ (s.data ++ ['"'] ++ [])) = some ([] : List Char).length :=
    indexOf_at_start _ _ ⟨_, rfl⟩
  have hi2 : indexOf ['"'] (s.data ++ ['"'] ++ []) = some s.data.length :=
    indexOf_after_clean '"' [] s.data [] hq
  have hshape : encodeString s = [] ++ ['"'] ++ (s.data ++ ['"'] ++ []) := by
    simp [hdata]
  have hcount : Count ⟨encodeString s⟩ "\"" = 2 := by
    have hlen : (encodeString s).length = (s.data.length + 1) + 1 := by simp [hdata]
    show (if ['"'] = [] then _ else countLoop ['"'] (encodeString s).length (encodeString s)) = 2
    rw [if_neg (by decide), hlen]
    rw [hshape, countLoop_step _ _ _ _ hi1, countLoop_step _ _ _ _ hi2,
      countLoop_nil _ _ (by decide)]
  have h2 : Split ⟨encodeString s⟩ "\"" = ["", s, ""] := by
    rw [Split, genSplit, if_neg (by decide), hcount]
    show List.map String.mk (genSplit.loop ['"'] 0 2 (encodeString s)) = _
    rw [hshape, loop_step _ _ _ _ _ (Nat.zero_le _) hi1,
      loop_step _ _ _ _ _ (Nat.zero_le _) hi2]
    simp [genSplit.loop]
  have i0 : index [(⟨encodeString s⟩ : String)] 0 = .ok ⟨encodeString s⟩ := rfl
  have i1 : index ["", s, ""] 1 = .ok s := rfl
  simp only [getLogLevel, h1, i0, h2, i1, bind, Except.bind]

/-- Witness of C14 (amended) on the level name `DEBUG`. -/
theorem getLogLevel_decodes_plain_witness :
    getLogLevel ⟨encodeString "DEBUG"⟩ = .ok "DEBUG" :=
  getLogLevel_decodes_plain "DEBUG" (by decide)

/-- C14 fails as stated: for the string `a"b` `Save` stores `"a\"b"` and `getLogLevel`
returns `a\`; for `<WARN>` it returns a lone backslash. -/
theorem getLogLevel_not_inverse_of_Save :
    Save ⟨⟨"service/voltha/config/"⟩, "rw-core", .ConfigTypeLogLevel⟩ "default" "a\"b" =
      .Put "service/voltha/config/rw-core/loglevel/default" "\"a\\\"b\"" ∧
    getLogLevel "\"a\\\"b\"" = .ok "a\\" ∧
    getLogLevel ⟨encodeString "<WARN>"⟩ = .ok "\\" := by
  refine ⟨by rfl, by rfl, by rfl⟩

theorem index_one_cases (s sep : String) (k : Nat) (hsep : sep.data ≠ []) :
    index (genSplit s sep k) 1 = .error (.indexOutOfRange 1 1) ∨
      ∃ x, index (genSplit s sep k) 1 = .ok x := by
  obtain ⟨h, t, hsplit, -, -⟩ := genSplit_head s sep k hsep
  rw [hsplit]
  cases t with
  | nil => exact Or.inl rfl
  | cons y t2 => exact Or.inr ⟨y, rfl⟩

theorem populateListData_loop_aborts (configType : String) (data : List KVPair) (kv : KVPair)
    (hmem : kv ∈ data) (hq : '"' ∉ kv.Value.data) (acc : Entries) :
    populateListData.loop configType data acc = .error (.indexOutOfRange 1 1) := by
  induction data generalizing acc with
  | nil => simp at hmem
  | cons kv0 rest ih =>
    have hsep : (configType ++ "/").data ≠ [] := by simp [String.data_append]
    rcases index_one_cases kv0.Key (configType ++ "/") (configType ++ "/").length hsep with
      herr | ⟨leaf, hok⟩
    · have herr' : index (SplitAfter kv0.Key (configType ++ "/")) 1 =
          .error (.indexOutOfRange 1 1) := herr
      simp only [populateListData.loop, herr', bind, Except.bind]
    · have hok' : index (SplitAfter kv0.Key (configType ++ "/")) 1 = .ok leaf := hok
      obtain ⟨seg, -, hpre, -, hyes, hno⟩ := getLogLevel_cases kv0.Value
      by_cases hs : '"' ∈ seg.data
      · obtain ⟨lvl, hl⟩ := hyes hs
        have hrest : kv ∈ rest := by
          rcases List.mem_cons.1 hmem with h | h
          · subst h
            exact absurd (hpre.subset hs) hq
          · exact h
        simp only [populateListData.loop, hok', hl, bind, Except.bind]
        exact ih hrest _
      · simp only [populateListData.loop, hok', hno hs, bind, Except.bind]

/-- C15, as the code behaves: `getLogLevel` returns a level exactly when the text of the
payload up to its first backslash holds a double quote, which every payload stored by
`Save` does; otherwise its index into the split result is out of range.  In particular
a payload without any double quote makes it panic, and `populateListData` aborts on a
listing that holds such a value. -/
theorem getLogLevel_total_only_with_quote :
    (∀ val : String, ∃ seg : String, index (SplitAfter val "\\") 0 = .ok seg ∧
      seg.data <+: val.data ∧
      ('"' ∈ seg.data → ∃ lvl, getLogLevel val = .ok lvl) ∧
      ('"' ∉ seg.data → getLogLevel val = .error (.indexOutOfRange 1 1))) ∧
    (∀ s : String, ∃ lvl, getLogLevel ⟨encodeString s⟩ = .ok lvl) ∧
    (∀ val : String, '"' ∉ val.data → getLogLevel val = .error (.indexOutOfRange 1 1)) ∧
    (∀ (data : List KVPair) (configType : String) (kv : KVPair), kv ∈ data →
      '"' ∉ kv.Value.data →
      populateListData data configType = .error (.indexOutOfRange 1 1)) := by
  refine ⟨?_, ?_, ?_, ?_⟩
  · intro val
    obtain ⟨seg, h0, hpre, -, hyes, hno⟩ := getLogLevel_cases val
    exact ⟨seg, h0, hpre, hyes, hno⟩
  · intro s
    obtain ⟨seg, -, hpre, hne, hyes, -⟩ := getLogLevel_cases ⟨encodeString s⟩
    apply hyes
    have hne' : seg.data ≠ [] := hne (by simp [encodeString])
    obtain ⟨u, hu⟩ := hpre
    cases hsd : seg.data with
    | nil => exact absurd hsd hne'
    | cons x xs =>
      rw [hsd] at hu
      simp only [encodeString, List.cons_append, List.cons.injEq] at hu
      rw [hu.1]
      simp
  · intro val hq
    obtain ⟨seg, -, hpre, -, -, hno⟩ := getLogLevel_cases val
    exact hno (fun h => hq (hpre.subset h))
  · intro data configType kv hmem hq
    simp only [populateListData, populateListData_loop_aborts configType data kv hmem hq []]

/-- C15 fails as stated: an unwrapped payload and the empty payload make `getLogLevel`
panic, and `populateListData` aborts on a listing with an unwrapped value. -/
theorem getLogLevel_panics_without_quote :
    getLogLevel "DEBUG" = .error (.indexOutOfRange 1 1) ∧
    getLogLevel "" = .error (.indexOutOfRange 1 1) ∧
    populateListData [⟨"service/voltha/config/rw-core/loglevel/pkgA", "DEBUG"⟩] "loglevel" =
      .error (.indexOutOfRange 1 1) :=
  ⟨by rfl, by rfl, by rfl⟩

theorem lookupKey_of_mem (es : Entries) (nd : NodupKeys es) (k v : String) (h : (k, v) ∈ es) :
    lookupKey k es = some v := by
  induction es with
  | nil => simp at h
  | cons e rest ih =>
    obtain ⟨k', v'⟩ := e
    simp only [NodupKeys, keysOf, List.map_cons, List.nodup_cons] at nd
    rcases List.mem_cons.1 h with heq | hmem
    · simp only [Prod.mk.injEq] at heq
      simp [lookupKey, heq.1, heq.2]
    · have hne : k' ≠ k := by
        intro e
        apply nd.1
        rw [e]
        exact List.mem_map_of_mem Prod.fst hmem
      simp only [lookupKey, hne, if_false]
      exact ih nd.2 hmem

theorem leaf_of_listed_key (c : ComponentConfig) (leaf : String)
    (hA : ¬ (c.configType.String ++ "/").data <:+: (makeConfigPath c).data)
    (hB : ¬ (c.configType.String ++ "/").data <:+: leaf.data) :
    index (SplitAfter (makeConfigPath c ++ "/" ++ leaf) (c.configType.String ++ "/")) 1 =
      .ok leaf := by
  obtain ⟨⟨P⟩, label, ty⟩ := c
  simp only at hA hB
  have hsepd : (ty.String ++ "/").data = ty.String.data ++ ['/'] := by
    simp [String.data_append]
  have hsepne : (ty.String ++ "/").data ≠ [] := by simp [hsepd]
  have hpath : (makeConfigPath ⟨⟨P⟩, label, ty⟩).data = (P ++ label ++ "/").data ++ ty.String.data := by
    simp [makeConfigPath, String.data_append]
  have hkey : (makeConfigPath ⟨⟨P⟩, label, ty⟩ ++ "/" ++ leaf).data =
      (P ++ label ++ "/").data ++ (ty.String ++ "/").data ++ leaf.data := by
    simp [makeConfigPath, String.data_append]
  have hidx : indexOf (ty.String ++ "/").data
      (makeConfigPath ⟨⟨P⟩, label, ty⟩ ++ "/" ++ leaf).data = some (P ++ label ++ "/").data.length := by
    apply indexOf_eq_some
    · rw [hkey]
      simp
    · rw [hkey, List.append_assoc, List.drop_left]
      exact List.prefix_append _ _
    · intro i hi hpre
      apply hA
      have hkey2 : (makeConfigPath ⟨⟨P⟩, label, ty⟩ ++ "/" ++ leaf).data =
          (makeConfigPath ⟨⟨P⟩, label, ty⟩).data ++ ('/' :: leaf.data) := by
        simp [String.data_append]
      have hile : i ≤ (makeConfigPath ⟨⟨P⟩, label, ty⟩).data.length := by
        rw [hpath, List.length_append]
        omega
      rw [hkey2, List.drop_append_of_le_length hile] at hpre
      have hlen : (ty.String ++ "/").data.length ≤
          ((makeConfigPath ⟨⟨P⟩, label, ty⟩).data.drop i).length := by
        rw [List.length_drop, hpath, List.length_append, hsepd, List.length_append]
        simp only [List.length_singleton]
        omega
      have hp2 : (ty.String ++ "/").data <+: (makeConfigPath ⟨⟨P⟩, label, ty⟩).data.drop i :=
        List.prefix_of_prefix_length_le hpre (List.prefix_append _ _) hlen
      exact hp2.isInfix.trans (List.drop_suffix i _).isInfix
  have := genSplit_two (makeConfigPath ⟨⟨P⟩, label, ty⟩ ++ "/" ++ leaf) (ty.String ++ "/")
    (P ++ label ++ "/") leaf (ty.String ++ "/").length (le_refl _) hkey hsepne hidx hB
  rw [SplitAfter, this]
  rfl

theorem populateListData_loop_listing (c : ComponentConfig) (f : String → String)
    (listing acc : Entries)
    (hA : ¬ (c.configType.String ++ "/").data <:+: (makeConfigPath c).data)
    (hB : ∀ e ∈ listing, ¬ (c.configType.String ++ "/").data <:+: e.1.data)
    (hf : ∀ e ∈ listing, getLogLevel e.2 = .ok (f e.2))
    (nd : NodupKeys listing) (hdis : ∀ k ∈ keysOf listing, k ∉ keysOf acc) :
    populateListData.loop c.configType.String
      (listing.map (fun e => ⟨makeConfigPath c ++ "/" ++ e.1, e.2⟩)) acc =
      .ok (acc ++ listing.map (fun e => (e.1, f e.2))) := by
  induction listing generalizing acc with
  | nil => simp [populateListData.loop]
  | cons e rest ih =>
    obtain ⟨leaf, payload⟩ := e
    have hleaf := leaf_of_listed_key c leaf hA (hB (leaf, payload) (by simp))
    have hlvl : getLogLevel payload = .ok (f payload) := hf (leaf, payload) (by simp)
    have hnot : leaf ∉ keysOf acc := hdis leaf (by simp [keysOf])
    simp only [NodupKeys, keysOf, List.map_cons, List.nodup_cons] at nd
    have hdis' : ∀ k ∈ keysOf rest, k ∉ keysOf (acc ++ [(leaf, f payload)]) := by
      intro k hk hmem
      simp only [keysOf, List.map_append, List.map_cons, List.map_nil, List.mem_append,
        List.mem_singleton] at hmem
      rcases hmem with h | h
      · exact hdis k (by simp only [keysOf, List.map_cons, List.mem_cons]; exact Or.inr hk) h
      · exact nd.1 (h ▸ hk)
    have hrec := ih (acc ++ [(leaf, f payload)]) (fun e he => hB e (by simp [he]))
      (fun e he => hf e (by simp [he])) nd.2 hdis'
    simp only [List.map_cons, populateListData.loop, hleaf, hlvl, bind, Except.bind,
      setEntry_of_not_mem leaf _ acc hnot]
    rw [hrec]
    simp

/-- C17, as the code behaves: when the text configType + `/` occurs neither in
`makeConfigPath()` nor in any listed leaf, every listed payload decodes, and the listed
leaves are distinct, `populateListData` returns a map whose keys are the listed leaves,
one entry per listed key, each leaf sent to the decoded level of its entry. -/
theorem populateListData_leaf_keyed (c : ComponentConfig) (listing : Entries)
    (hA : ¬ (c.configType.String ++ "/").data <:+: (makeConfigPath c).data)
    (hB : ∀ e ∈ listing, ¬ (c.configType.String ++ "/").data <:+: e.1.data)
    (hval : ∀ e ∈ listing, ∃ lvl, getLogLevel e.2 = .ok lvl)
    (nd : NodupKeys listing) :
    ∃ m, populateListData (listing.map (fun e => ⟨makeConfigPath c ++ "/" ++ e.1, e.2⟩))
        c.configType.String = .ok (some m) ∧
      keysOf m = keysOf listing ∧
      ∀ leaf payload, (leaf, payload) ∈ listing →
        ∃ lvl, getLogLevel payload = .ok lvl ∧ lookupKey leaf m = some lvl := by
  have hf : ∀ e ∈ listing, getLogLevel e.2 = .ok (((getLogLevel e.2).toOption).getD "") := by
    intro e he
    obtain ⟨lvl, hl⟩ := hval e he
    rw [hl]
    rfl
  have hloop := populateListData_loop_listing c (fun p => ((getLogLevel p).toOption).getD "")
    listing [] hA hB hf nd (by simp [keysOf])
  refine ⟨listing.map (fun e => (e.1, ((getLogLevel e.2).toOption).getD "")), ?_, ?_, ?_⟩
  · simp only [populateListData, hloop, List.nil_append]
  · simp [keysOf]
  · intro leaf payload hmem
    refine ⟨_, hf (leaf, payload) hmem, ?_⟩
    apply lookupKey_of_mem
    · simpa [NodupKeys, keysOf] using nd
    · exact List.mem_map.2 ⟨(leaf, payload), hmem, rfl⟩

/-- Witness of C17 (amended): a listing of two leaves. -/
theorem populateListData_leaf_keyed_witness :
    ∃ m, populateListData
        ([("default", "\"WARN\""), ("pkgA", "\"DEBUG\"")].map (fun e =>
          ⟨makeConfigPath ⟨⟨"service/voltha/config/"⟩, "rw-core", .ConfigTypeLogLevel⟩ ++ "/" ++ e.1,
            e.2⟩)) "loglevel" = .ok (some m) ∧
      keysOf m = ["default", "pkgA"] ∧
      ∀ leaf payload, (leaf, payload) ∈ [("default", "\"WARN\""), ("pkgA", "\"DEBUG\"")] →
        ∃ lvl, getLogLevel payload = .ok lvl ∧ lookupKey leaf m = some lvl :=
  populateListData_leaf_keyed ⟨⟨"service/voltha/config/"⟩, "rw-core", .ConfigTypeLogLevel⟩
    [("default", "\"WARN\""), ("pkgA", "\"DEBUG\"")] (by decide) (by decide)
    (by
      intro e he
      simp only [List.mem_cons, List.mem_singleton, List.not_mem_nil, or_false] at he
      rcases he with rfl | rfl
      · exact ⟨"WARN", rfl⟩
      · exact ⟨"DEBUG", rfl⟩)
    (by decide)

/-- C17 fails as stated: with the prefix `voltha/loglevel/` the key of leaf `pkgA` is
stored under `rw-core/loglevel/`; a leaf `a/loglevel/b` is stored under `a/loglevel/`;
and a listing with an unwrapped payload makes `populateListData` panic. -/
theorem populateListData_wrong_leaf :
    populateListData
      [⟨makeConfigPath ⟨⟨"voltha/loglevel/"⟩, "rw-core", .ConfigTypeLogLevel⟩ ++ "/" ++ "pkgA",
        "\"DEBUG\""⟩] "loglevel" = .ok (some [("rw-core/loglevel/", "DEBUG")]) ∧
    populateListData
      [⟨makeConfigPath ⟨⟨"service/voltha/config/"⟩, "rw-core", .ConfigTypeLogLevel⟩ ++ "/" ++
        "a/loglevel/b", "\"DEBUG\""⟩] "loglevel" = .ok (some [("a/loglevel/", "DEBUG")]) ∧
    populateListData
      [⟨makeConfigPath ⟨⟨"service/voltha/config/"⟩, "rw-core", .ConfigTypeLogLevel⟩ ++ "/" ++ "pkgA",
        "DEBUG"⟩] "loglevel" = .error (.indexOutOfRange 1 1) :=
  ⟨by rfl, by rfl, by rfl⟩

/-! ## Accessor writes -/

theorem lookupKey_setEntry_self (k v : String) (es : Entries) :
    lookupKey k (setEntry k v es) = some v := by
  induction es with
  | nil => simp [setEntry, lookupKey]
  | cons e rest ih =>
    obtain ⟨k', v'⟩ := e
    by_cases h : k' = k
    · simp [setEntry, lookupKey, h]
    · simp [setEntry, lookupKey, h, ih]

theorem lookupKey_filter_ne (k d : String) (es : Entries) (h : k ≠ d) :
    lookupKey k (es.filter (fun e => e.1 != d)) = lookupKey k es := by
  induction es with
  | nil => rfl
  | cons e rest ih =>
    obtain ⟨k', v'⟩ := e
    by_cases hd : k' = d
    · have hk : ¬ k' = k := fun e => h (e ▸ hd)
      have hb : (k' != d) = false := by simp [hd]
      simp only [List.filter, hb, lookupKey, hk, if_false]
      exact ih
    · have hb : (k' != d) = true := by simpa using hd
      simp only [List.filter, hb, lookupKey, ih]

/-- C16, evaluated on the code: `Delete(k)` issues the store delete for `makeConfigPath()`,
whatever `k` is, while `Save(k, v)` writes `makeConfigPath() + "/" + k`; the two keys
differ, so on a store seen as a key/value map the entry written by `Save(k, v)` is still
there after `Delete(k)`. -/
theorem Delete_ignores_configKey (c : ComponentConfig) (configKey v : String) (store : Entries) :
    Delete c configKey = .Delete (makeConfigPath c) ∧
    Save c configKey v = .Put (makeConfigPath c ++ "/" ++ configKey) ⟨encodeString v⟩ ∧
    makeConfigPath c ≠ makeConfigPath c ++ "/" ++ configKey ∧
    lookupKey (makeConfigPath c ++ "/" ++ configKey)
      (storeApply (storeApply store (Save c configKey v)) (Delete c configKey)) =
        some ⟨encodeString v⟩ := by
  have hne : makeConfigPath c ≠ makeConfigPath c ++ "/" ++ configKey := by
    intro h
    have := congrArg (fun s => s.data.length) h
    simp [String.data_append] at this
  refine ⟨rfl, rfl, hne, ?_⟩
  simp only [Save, Delete, storeApply]
  rw [lookupKey_filter_ne _ _ _ (Ne.symm hne), lookupKey_setEntry_self]

/-! ## Control loop: store failures -/

/-- C18, as the code behaves by design: when the listing of the global subtree fails during
the handling of a Put event and the component subtree is listed, the error is only
logged: `updateLogConfig` goes on with a nil global map and returns the component's own
levels, and the turn is that of `loadAndApplyLogConfig` on them: they are applied and
their fingerprint is stored when it differs from the stored one, and nothing is done
when it does not. -/
theorem processLogConfig_global_listing_failure (md5Sum : String → Digest) (log : LogPackage)
    (c : ComponentLogController) (logger : Logger) (changeEvent : ConfigChangeEvent)
    (globalCfg componentCfg : ComponentConfig) (err : String) (data : List KVPair)
    (comp : Entries)
    (hput : changeEvent.ChangeType = 0)
    (hg : c.globalConfig = some globalCfg) (hc : c.componentNameConfig = some componentCfg)
    (hpop : populateListData data componentCfg.configType.String = .ok (some comp)) :
    updateLogConfig c (.error err) (.ok data) = .ok (some comp) ∧
    processLogConfig.body md5Sum log c logger changeEvent (.error err) (.ok data) =
      loadAndApplyLogConfig md5Sum log c logger (some comp) ∧
    ∃ out, processLogConfig.body md5Sum log c logger changeEvent (.error err) (.ok data) =
        .ok out ∧
      (c.logHash ≠ GenerateLogConfigHash md5Sum (some comp) →
        out.applied.length = 1 ∧
        out.controller.logHash = GenerateLogConfigHash md5Sum (some comp)) ∧
      (c.logHash = GenerateLogConfigHash md5Sum (some comp) →
        out.applied.length = 0 ∧ out.controller = c ∧ out.logger = logger) := by
  have hmerge : createCurrentLogLevel none (some comp) = .ok ⟨none, some comp, some comp⟩ := rfl
  have hupdate : updateLogConfig c (.error err) (.ok data) = .ok (some comp) := by
    simp only [updateLogConfig, getGlobalLogConfig, getComponentLogConfig, configTypeString, hg, hc,
      hpop, bind, Except.bind, pure, Except.pure, mapOrNil, hmerge]
  have hbody : processLogConfig.body md5Sum log c logger changeEvent (.error err) (.ok data) =
      loadAndApplyLogConfig md5Sum log c logger (some comp) := by
    simp [processLogConfig.body, hput, ChangeEventType.EventString, hupdate, bind, Except.bind]
  refine ⟨hupdate, hbody, ?_⟩
  rw [hbody]
  obtain ⟨merged, hupd, -, -⟩ := UpdateLogLevels_alloc log logger comp
  by_cases h : c.logHash = GenerateLogConfigHash md5Sum (some comp)
  · refine ⟨⟨c, logger, some comp, []⟩, ?_, fun hne => absurd h hne, fun _ => ⟨rfl, rfl, rfl⟩⟩
    simp [loadAndApplyLogConfig, h]
  · refine ⟨⟨{ c with logHash := GenerateLogConfigHash md5Sum (some comp) },
      (merged.map (UpdateLogLevels.call log)).foldl Logger.apply logger, some merged,
      [merged.map (UpdateLogLevels.call log)]⟩, ?_, fun _ => ⟨rfl, rfl⟩, fun he => absurd he h⟩
    simp only [loadAndApplyLogConfig, h, ne_eq, not_false_eq_true, if_true, hupd]

/-- Witness of C18 (amended) from the initial all-zero fingerprint. -/
theorem processLogConfig_global_listing_failure_witness :
    ∃ out, processLogConfig.body (fun s _ => Fin.ofNat s.length) sampleLog
        ⟨"rw-core", some ⟨⟨"service/voltha/config/"⟩, "rw-core", .ConfigTypeLogLevel⟩,
          some ⟨⟨"service/voltha/config/"⟩, "global", .ConfigTypeLogLevel⟩, fun _ => 0⟩
        ⟨3, []⟩ ⟨0, "global", "pkgA", "\"DEBUG\""⟩ (.error "store down")
        (.ok [⟨"service/voltha/config/rw-core/loglevel/pkgA", "\"DEBUG\""⟩]) = .ok out ∧
      out.applied.length = 1 ∧
      out.controller.logHash =
        GenerateLogConfigHash (fun s _ => Fin.ofNat s.length) (some [("pkgA", "DEBUG")]) := by
  obtain ⟨out, hout, hdiff, -⟩ := (processLogConfig_global_listing_failure
    (fun s _ => Fin.ofNat s.length) sampleLog
    ⟨"rw-core", some ⟨⟨"service/voltha/config/"⟩, "rw-core", .ConfigTypeLogLevel⟩,
      some ⟨⟨"service/voltha/config/"⟩, "global", .ConfigTypeLogLevel⟩, fun _ => 0⟩
    ⟨3, []⟩ ⟨0, "global", "pkgA", "\"DEBUG\""⟩
    ⟨⟨"service/voltha/config/"⟩, "global", .ConfigTypeLogLevel⟩
    ⟨⟨"service/voltha/config/"⟩, "rw-core", .ConfigTypeLogLevel⟩ "store down"
    [⟨"service/voltha/config/rw-core/loglevel/pkgA", "\"DEBUG\""⟩] [("pkgA", "DEBUG")]
    rfl rfl rfl rfl).2.2
  have hne : (fun _ => 0 : Digest) ≠
      GenerateLogConfigHash (fun s _ => Fin.ofNat s.length) (some [("pkgA", "DEBUG")]) :=
    fun h => absurd (congrFun h 0) (by decide)
  exact ⟨out, hout, (hdiff hne).1, (hdiff hne).2⟩

/-- C18 fails as stated: with the global listing failing the component levels are applied
and the fingerprint is replaced; with the component listing failing (the global one
listing a package, or failing too) the turn ends in the panic `assignment to entry in nil
map`. -/
theorem processLogConfig_store_failure_not_abandoned :
    (∃ out, processLogConfig.body (fun s _ => Fin.ofNat s.length) sampleLog
        ⟨"rw-core", some ⟨⟨"service/voltha/config/"⟩, "rw-core", .ConfigTypeLogLevel⟩,
          some ⟨⟨"service/voltha/config/"⟩, "global", .ConfigTypeLogLevel⟩, fun _ => 0⟩
        ⟨3, []⟩ ⟨0, "global", "pkgA", "\"DEBUG\""⟩ (.error "store down")
        (.ok [⟨"service/voltha/config/rw-core/loglevel/pkgA", "\"DEBUG\""⟩]) = .ok out ∧
      out.applied = [[.SetPackageLogLevel "pkgA" 0, .SetDefaultLogLevel 3]] ∧
      out.controller.logHash 0 = 16) ∧
    processLogConfig.body (fun s _ => Fin.ofNat s.length) sampleLog
        ⟨"rw-core", some ⟨⟨"service/voltha/config/"⟩, "rw-core", .ConfigTypeLogLevel⟩,
          some ⟨⟨"service/voltha/config/"⟩, "global", .ConfigTypeLogLevel⟩, fun _ => 0⟩
        ⟨3, []⟩ ⟨0, "global", "pkgA", "\"DEBUG\""⟩
        (.ok [⟨"service/voltha/config/global/loglevel/pkgA", "\"DEBUG\""⟩])
        (.error "store down") = .error .nilMapAssignment ∧
    processLogConfig.body (fun s _ => Fin.ofNat s.length) sampleLog
        ⟨"rw-core", some ⟨⟨"service/voltha/config/"⟩, "rw-core", .ConfigTypeLogLevel⟩,
          some ⟨⟨"service/voltha/config/"⟩, "global", .ConfigTypeLogLevel⟩, fun _ => 0⟩
        ⟨3, []⟩ ⟨0, "global", "pkgA", "\"DEBUG\""⟩ (.error "store down")
        (.error "store down") = .error .nilMapAssignment :=
  ⟨⟨_, rfl, rfl, by decide⟩, by rfl, by rfl⟩

/-! ## Level applier: packages that the map does not list -/

theorem ReplaceAll_back (p : String) (h : '#' ∉ p.data) :
    ReplaceAll (ReplaceAll p '/' '#') '#' '/' = p := by
  apply String.ext
  simp only [ReplaceAll, List.map_map]
  have : ∀ l : List Char, '#' ∉ l →
      l.map ((fun ch => if ch = '#' then '/' else ch) ∘ (fun ch => if ch = '/' then '#' else ch)) =
        l := by
    intro l hl
    induction l with
    | nil => rfl
    | cons x xs ih =>
      have hx : x ≠ '#' := fun e => hl (by simp [e])
      have hxs : '#' ∉ xs := fun hm => hl (by simp [hm])
      simp only [List.map_cons, Function.comp, ih hxs, List.cons.injEq, and_true]
      by_cases hs : x = '/'
      · simp [hs]
      · simp [hs, hx]
  exact this p.data h

theorem keysafe_ne_default (p : String) (h : '#' ∉ p.data) (hp : p ≠ "default") :
    ReplaceAll p '/' '#' ≠ "default" := by
  intro e
  have hb := ReplaceAll_back p h
  rw [e] at hb
  exact hp (hb.symm.trans (by decide))

theorem keysafe_inj (p q : String) (hp : '#' ∉ p.data) (hq : '#' ∉ q.data)
    (h : ReplaceAll p '/' '#' = ReplaceAll q '/' '#') : p = q := by
  rw [← ReplaceAll_back p hp, ← ReplaceAll_back q hq, h]

theorem GetPackageLogLevel_of_mem (logger : Logger)
    (hnames : (logger.packages.map Prod.fst).Nodup) (p : String) (l : Int)
    (h : (p, l) ∈ logger.packages) : logger.GetPackageLogLevel p = .ok l := by
  have : ∀ ps : List (String × Int), (ps.map Prod.fst).Nodup → (p, l) ∈ ps →
      ps.find? (fun e => e.1 == p) = some (p, l) := by
    intro ps
    induction ps with
    | nil => intro _ hm; simp at hm
    | cons e rest ih =>
      intro nd hm
      obtain ⟨p', l'⟩ := e
      simp only [List.map_cons, List.nodup_cons] at nd
      rcases List.mem_cons.1 hm with heq | hmem
      · simp only [Prod.mk.injEq] at heq
        simp [List.find?, heq.1, heq.2]
      · have hne : p' ≠ p := by
          intro e
          apply nd.1
          rw [e]
          exact List.mem_map_of_mem Prod.fst hmem
        have hb : (p' == p) = false := by simpa using hne
        simp only [List.find?, hb]
        exact ih nd.2 hmem
  simp only [Logger.GetPackageLogLevel, this logger.packages hnames h]

theorem getActiveLogLevel_loop_eq (log : LogPackage) (logger : Logger)
    (hnames : (logger.packages.map Prod.fst).Nodup)
    (ps : List (String × Int)) (acc : Entries)
    (hsub : ∀ e ∈ ps, e ∈ logger.packages)
    (hnd : (ps.map Prod.fst).Nodup)
    (hsharp : ∀ e ∈ ps, '#' ∉ e.1.data)
    (hdis : ∀ e ∈ ps, ReplaceAll e.1 '/' '#' ∉ keysOf acc) :
    getActiveLogLevel.loop log logger (ps.map Prod.fst) acc =
      .ok (acc ++ ps.map (fun e => (ReplaceAll e.1 '/' '#', log.IntToString e.2))) := by
  induction ps generalizing acc with
  | nil => simp [getActiveLogLevel.loop]
  | cons e rest ih =>
    obtain ⟨p, l⟩ := e
    have hget := GetPackageLogLevel_of_mem logger hnames p l (hsub (p, l) (by simp))
    have hnot : ReplaceAll p '/' '#' ∉ keysOf acc := hdis (p, l) (by simp)
    simp only [List.map_cons, List.nodup_cons] at hnd
    have hdis' : ∀ e ∈ rest, ReplaceAll e.1 '/' '#' ∉
        keysOf (acc ++ [(ReplaceAll p '/' '#', log.IntToString l)]) := by
      intro e he hmem
      simp only [keysOf, List.map_append, List.map_cons, List.map_nil, List.mem_append,
        List.mem_singleton] at hmem
      rcases hmem with h | h
      · exact hdis e (by simp [he]) h
      · have := keysafe_inj e.1 p (hsharp e (by simp [he])) (hsharp (p, l) (by simp)) h
        apply hnd.1
        rw [← this]
        exact List.mem_map_of_mem Prod.fst he
    have hrec := ih (acc ++ [(ReplaceAll p '/' '#', log.IntToString l)])
      (fun e he => hsub e (by simp [he])) hnd.2 (fun e he => hsharp e (by simp [he])) hdis'
    simp only [List.map_cons, getActiveLogLevel.loop, hget, setEntry_of_not_mem _ _ acc hnot]
    rw [hrec]
    simp

theorem getActiveLogLevel_eq (log : LogPackage) (logger : Logger)
    (hnames : (logger.packages.map Prod.fst).Nodup)
    (hsharp : ∀ e ∈ logger.packages, '#' ∉ e.1.data ∧ e.1 ≠ "default") :
    getActiveLogLevel log logger =
      .ok (some (("default", log.IntToString logger.defaultLevel) ::
        logger.packages.map (fun e => (ReplaceAll e.1 '/' '#', log.IntToString e.2)))) := by
  have hloop := getActiveLogLevel_loop_eq log logger hnames logger.packages
    [("default", log.IntToString logger.defaultLevel)] (fun e he => he) hnames
    (fun e he => (hsharp e he).1)
    (by
      intro e he hmem
      simp only [keysOf, List.map_cons, List.map_nil, List.mem_singleton] at hmem
      exact keysafe_ne_default e.1 (hsharp e he).1 (hsharp e he).2 hmem)
  simp only [getActiveLogLevel, setEntry, hloop]
  rfl

theorem lookupKey_some_mem (k v : String) (es : Entries) (h : lookupKey k es = some v) :
    (k, v) ∈ es := by
  induction es with
  | nil => simp [lookupKey] at h
  | cons e rest ih =>
    obtain ⟨k', v'⟩ := e
    by_cases hk : k' = k
    · simp only [lookupKey, hk, if_true, Option.some.injEq] at h
      simp [hk, h]
    · simp only [lookupKey, hk, if_false] at h
      exact List.mem_cons_of_mem _ (ih h)

theorem UpdateLogLevels_alloc_lookup (log : LogPackage) (logger : Logger) (es : Entries) :
    ∃ merged, UpdateLogLevels log logger (some es) =
        .ok ⟨some merged, merged.map (UpdateLogLevels.call log),
          (merged.map (UpdateLogLevels.call log)).foldl Logger.apply logger⟩ ∧
      es <+: merged ∧
      ∀ k, lookupKey k merged = (lookupKey k es).orElse (fun _ =>
        (lookupKey k (mapOrNil (getActiveLogLevel log logger)).entries).map
          (fallbackOr (getDefaultLogLevel (some es)))) := by
  obtain ⟨c', hc', hlook⟩ := loop_alloc (getDefaultLogLevel (some es))
    (GoMap.entries (mapOrNil (getActiveLogLevel log logger))) es
  refine ⟨c', ?_, (loop_prefix_nodup _ _ _ _ hc').1, hlook⟩
  have hm := createCurrentLogLevel_of_loop _ es c' hc'
  simp only [UpdateLogLevels]
  rw [hm]
  rfl

theorem lookupKey_keysafe (log : LogPackage) (ps : List (String × Int))
    (hnd : (ps.map Prod.fst).Nodup) (hsharp : ∀ e ∈ ps, '#' ∉ e.1.data) (p : String) (l : Int)
    (h : (p, l) ∈ ps) :
    lookupKey (ReplaceAll p '/' '#')
      (ps.map (fun e => (ReplaceAll e.1 '/' '#', log.IntToString e.2))) =
        some (log.IntToString l) := by
  induction ps with
  | nil => simp at h
  | cons e rest ih =>
    obtain ⟨p', l'⟩ := e
    simp only [List.map_cons, List.nodup_cons] at hnd
    rcases List.mem_cons.1 h with heq | hmem
    · simp only [Prod.mk.injEq] at heq
      simp [lookupKey, heq.1, heq.2]
    · have hne : ReplaceAll p' '/' '#' ≠ ReplaceAll p '/' '#' := by
        intro e
        have := keysafe_inj p' p (hsharp (p', l') (by simp)) (hsharp (p, l) (by simp [hmem])) e
        apply hnd.1
        rw [this]
        exact List.mem_map_of_mem Prod.fst hmem
      simp only [List.map_cons, lookupKey, hne, if_false]
      exact ih hnd.2 (fun e he => hsharp e (by simp [he])) hmem

/-- C20, as the code behaves: let the package names of the logger be distinct, free of `#`
and different from `default`, and let the level conversions give back each active level.
Then for an allocated map `m`, every package whose key-safe name is not a key of `m` is
set to the level of `m["default"]` when that entry is non-empty, and to its own active
level otherwise; the default level is set again to its active value when `m` has no
`default` key; and `m` keeps its entries and gains one for each of these. -/
theorem UpdateLogLevels_touches_unlisted (log : LogPackage) (logger : Logger) (es : Entries)
    (hnames : (logger.packages.map Prod.fst).Nodup)
    (hsharp : ∀ e ∈ logger.packages, '#' ∉ e.1.data ∧ e.1 ≠ "default")
    (hrt : ∀ lvl, (lvl = logger.defaultLevel ∨ lvl ∈ logger.packages.map Prod.snd) →
      log.StringToInt (log.IntToString lvl) = lvl) :
    ∃ out, UpdateLogLevels log logger (some es) = .ok out ∧
      (∀ p lvl, (p, lvl) ∈ logger.packages → ReplaceAll p '/' '#' ∉ keysOf es →
        (getDefaultLogLevel (some es) ≠ "" →
          LogCall.SetPackageLogLevel p (log.StringToInt (getDefaultLogLevel (some es))) ∈
            out.calls ∧
          out.logLevel.get? (ReplaceAll p '/' '#') = some (getDefaultLogLevel (some es))) ∧
        (getDefaultLogLevel (some es) = "" →
          LogCall.SetPackageLogLevel p lvl ∈ out.calls ∧
          out.logLevel.get? (ReplaceAll p '/' '#') = some (log.IntToString lvl))) ∧
      ("default" ∉ keysOf es →
        LogCall.SetDefaultLogLevel logger.defaultLevel ∈ out.calls ∧
        out.logLevel.get? "default" = some (log.IntToString logger.defaultLevel)) ∧
      (∀ e ∈ es, e ∈ out.logLevel.entries) := by
  obtain ⟨merged, hout, hpre, hlook⟩ := UpdateLogLevels_alloc_lookup log logger es
  have hactive := getActiveLogLevel_eq log logger hnames hsharp
  rw [hactive] at hlook
  simp only [mapOrNil, GoMap.entries] at hlook
  refine ⟨_, hout, ?_, ?_, fun e he => hpre.subset he⟩
  · intro p lvl hp hnot
    have hk : lookupKey (ReplaceAll p '/' '#') es = none :=
      (lookupKey_eq_none_iff _ _).2 hnot
    have hnd : ReplaceAll p '/' '#' ≠ "default" :=
      keysafe_ne_default p (hsharp _ hp).1 (hsharp _ hp).2
    have hact : lookupKey (ReplaceAll p '/' '#')
        (("default", log.IntToString logger.defaultLevel) ::
          logger.packages.map (fun e => (ReplaceAll e.1 '/' '#', log.IntToString e.2))) =
        some (log.IntToString lvl) := by
      simp only [lookupKey, Ne.symm hnd, if_false]
      exact lookupKey_keysafe log logger.packages hnames (fun e he => (hsharp e he).1) p lvl hp
    have hm : lookupKey (ReplaceAll p '/' '#') merged =
        some (fallbackOr (getDefaultLogLevel (some es)) (log.IntToString lvl)) := by
      rw [hlook, hk, hact]
      rfl
    have hmem := lookupKey_some_mem _ _ _ hm
    have hcall : UpdateLogLevels.call log
        (ReplaceAll p '/' '#', fallbackOr (getDefaultLogLevel (some es)) (log.IntToString lvl)) =
        LogCall.SetPackageLogLevel p
          (log.StringToInt (fallbackOr (getDefaultLogLevel (some es)) (log.IntToString lvl))) := by
      have hb : (ReplaceAll p '/' '#' == "default") = false := by simpa using hnd
      simp only [UpdateLogLevels.call, hb, ReplaceAll_back p (hsharp _ hp).1]
      rfl
    have hin : LogCall.SetPackageLogLevel p
        (log.StringToInt (fallbackOr (getDefaultLogLevel (some es)) (log.IntToString lvl))) ∈
        merged.map (UpdateLogLevels.call log) := by
      rw [← hcall]
      exact List.mem_map_of_mem _ hmem
    constructor
    · intro hd
      have hf : fallbackOr (getDefaultLogLevel (some es)) (log.IntToString lvl) =
          getDefaultLogLevel (some es) := by
        simp [fallbackOr, hd]
      rw [hf] at hin hm
      exact ⟨hin, hm⟩
    · intro hd
      have hf : fallbackOr (getDefaultLogLevel (some es)) (log.IntToString lvl) =
          log.IntToString lvl := by
        simp [fallbackOr, hd]
      rw [hf] at hin hm
      rw [hrt lvl (Or.inr (List.mem_map_of_mem Prod.snd hp))] at hin
      exact ⟨hin, hm⟩
  · intro hnot
    have hk : lookupKey "default" es = none := (lookupKey_eq_none_iff _ _).2 hnot
    have hd : getDefaultLogLevel (some es) = "" := by
      rw [getDefaultLogLevel_eq, hk]
      rfl
    have hm : lookupKey "default" merged = some (log.IntToString logger.defaultLevel) := by
      rw [hlook, hk, hd]
      simp [lookupKey, fallbackOr]
    have hmem := lookupKey_some_mem _ _ _ hm
    have hcall : UpdateLogLevels.call log ("default", log.IntToString logger.defaultLevel) =
        LogCall.SetDefaultLogLevel logger.defaultLevel := by
      simp [UpdateLogLevels.call, hrt logger.defaultLevel (Or.inl rfl)]
    refine ⟨?_, hm⟩
    show LogCall.SetDefaultLogLevel logger.defaultLevel ∈ merged.map (UpdateLogLevels.call log)
    rw [← hcall]
    exact List.mem_map_of_mem _ hmem

/-- Witness of C20 (amended): one package, a map with a default only. -/
theorem UpdateLogLevels_touches_unlisted_witness :
    ∃ out, UpdateLogLevels sampleLog ⟨3, [("github.com/opencord/pkg", 1)]⟩
        (some [("default", "DEBUG")]) = .ok out ∧
      LogCall.SetPackageLogLevel "github.com/opencord/pkg" 0 ∈ out.calls ∧
      out.logLevel.get? "github.com#opencord#pkg" = some "DEBUG" := by
  obtain ⟨out, hout, hpk, -, -⟩ := UpdateLogLevels_touches_unlisted sampleLog
    ⟨3, [("github.com/opencord/pkg", 1)]⟩ [("default", "DEBUG")] (by decide) (by decide)
    (by
      intro lvl h
      simp only [List.map_cons, List.map_nil, List.mem_singleton] at h
      rcases h with rfl | rfl <;> decide)
  exact ⟨out, hout, ((hpk "github.com/opencord/pkg" 1 (by decide) (by decide)).1 (by decide))⟩

/-- C20 fails as stated: a package named `a#b` is never set (the call names `a/b`) and keeps
its level although `m` has a default; and with a package named `default` the default
level is set to that package's level, not to its own active value. -/
theorem UpdateLogLevels_misses_package_with_hash :
    UpdateLogLevels sampleLog ⟨3, [("a#b", 3)]⟩ (some [("default", "DEBUG")]) =
      .ok ⟨some [("default", "DEBUG"), ("a#b", "DEBUG")],
        [.SetDefaultLogLevel 0, .SetPackageLogLevel "a/b" 0],
        ⟨0, [("a#b", 3)]⟩⟩ ∧
    UpdateLogLevels sampleLog ⟨3, [("default", 1)]⟩ (some []) =
      .ok ⟨some [("default", "INFO")], [.SetDefaultLogLevel 1], ⟨1, [("default", 1)]⟩⟩ :=
  ⟨by rfl, by rfl⟩

end LogConfig
